import Mathlib

/-!
Verification of the yamlpath merge engine specification.

The merge engine itself (`yamlpath/merger/merger.py`, `MergerConfig`, and the
merger enums) is not part of the provided sources; only its command-line
caller (`yamlpath/commands/yaml_merge.py`), its tests
(`tests/test_merger_merger.py`) and the `NodeCoords` wrapper
(`yamlpath/wrappers/nodecoords.py`) are.  The merge functions below are
therefore modelled from the specification text (spec.md sections 3 and 4),
while `unwrap_node_coords` is embedded directly from
`yamlpath/wrappers/nodecoords.py`.
-/

namespace Yamlpath

/-- Modelled from the spec: the hash-merge policy enumeration `HashMergeOpts`
(spec section 3, MergerConfig; the enum module is absent from the sources). -/
inductive HashMergeOpts where
  | stop
  | left
  | right
  | deep
deriving DecidableEq, Repr

/-- Modelled from the spec: the array-merge policy enumeration
`ArrayMergeOpts` (spec section 3; the enum module is absent). -/
inductive ArrayMergeOpts where
  | stop
  | left
  | right
  | all
  | unique
deriving DecidableEq, Repr

/-- Modelled from the spec: the array-of-hashes merge policy enumeration
`AoHMergeOpts` (spec section 3; the enum module is absent). -/
inductive AoHMergeOpts where
  | stop
  | left
  | right
  | all
  | unique
  | deep
deriving DecidableEq, Repr

/-- Modelled from the spec: the anchor-conflict policy enumeration
`AnchorConflictResolutions` (spec section 3; the enum module is absent). -/
inductive AnchorConflictResolutions where
  | stop
  | left
  | right
  | rename
deriving DecidableEq, Repr

/-- Modelled from the spec: the distinct `MergeException` situations of the
merge engine (spec sections 4.1 and 7; the exception module is absent).
Each carries the data printed in its message. -/
inductive MergeError where
  | anchorConflict (name : String)
  | scalarIntoHash (v : String)
  | hashIntoNonHash
  | arrayIntoNonArray
  | aohIntoNonArray
  | mandatoryKey (key : String)
  | hashStop
  | arrayStop
  | aohStop
deriving DecidableEq, Repr

/-- Modelled from the spec: the human-readable message of each
`MergeException`, with the wording quoted by the spec and asserted by the
tests in `tests/test_merger_merger.py`. -/
def MergeError.message : MergeError → String
  | .anchorConflict name =>
      "Aborting due to anchor conflict with, " ++ name
  | .scalarIntoHash v =>
      "Impossible to add Scalar value, " ++ v
        ++ ", to a Hash without a specified key."
  | .hashIntoNonHash =>
      "Impossible to add Hash data to non-Hash destination."
  | .arrayIntoNonArray =>
      "Impossible to add Array data to non-Array destination."
  | .aohIntoNonArray =>
      "Impossible to add Array-of-Hash data to non-Array destination."
  | .mandatoryKey key =>
      "Mandatory identity key, " ++ key ++ ", not present in the RHS record."
  | .hashStop =>
      "Refusing to merge Hash data due to the STOP policy."
  | .arrayStop =>
      "Refusing to merge Array data due to the STOP policy."
  | .aohStop =>
      "Refusing to merge Array-of-Hash data due to the STOP policy."

/-- Modelled from the spec: the polymorphic document tree node (spec section
3): a scalar, an ordered mapping with string keys, or a sequence.  Anchors
are handled by a separate registry model, following spec section 9. -/
inductive Node where
  | scalar (v : String)
  | mapping (entries : List (String × Node))
  | sequence (items : List Node)

mutual

/-- Decidable equality of nodes, by mutual recursion with the entry lists. -/
def Node.decEq : (a b : Node) → Decidable (a = b)
  | .scalar a, .scalar b =>
      if h : a = b then .isTrue (by rw [h]) else .isFalse (by intro hc; injection hc; contradiction)
  | .scalar _, .mapping _ => .isFalse nofun
  | .scalar _, .sequence _ => .isFalse nofun
  | .mapping _, .scalar _ => .isFalse nofun
  | .mapping a, .mapping b =>
      match Node.decEqEntries a b with
      | .isTrue h => .isTrue (by rw [h])
      | .isFalse h => .isFalse (by intro hc; injection hc; contradiction)
  | .mapping _, .sequence _ => .isFalse nofun
  | .sequence _, .scalar _ => .isFalse nofun
  | .sequence _, .mapping _ => .isFalse nofun
  | .sequence a, .sequence b =>
      match Node.decEqSeq a b with
      | .isTrue h => .isTrue (by rw [h])
      | .isFalse h => .isFalse (by intro hc; injection hc; contradiction)

/-- Decidable equality of mapping entry lists. -/
def Node.decEqEntries : (a b : List (String × Node)) → Decidable (a = b)
  | [], [] => .isTrue rfl
  | [], _ :: _ => .isFalse nofun
  | _ :: _, [] => .isFalse nofun
  | (k, v) :: r, (k', v') :: r' =>
      if hk : k = k' then
        match Node.decEq v v', Node.decEqEntries r r' with
        | .isTrue hv, .isTrue hr => .isTrue (by rw [hk, hv, hr])
        | .isFalse hv, _ =>
            .isFalse (by
              intro hc; injection hc with h1 h2; exact hv (congrArg Prod.snd h1))
        | _, .isFalse hr =>
            .isFalse (by intro hc; injection hc with h1 h2; exact hr h2)
      else
        .isFalse (by
          intro hc; injection hc with h1 h2; exact hk (congrArg Prod.fst h1))

/-- Decidable equality of node lists. -/
def Node.decEqSeq : (a b : List Node) → Decidable (a = b)
  | [], [] => .isTrue rfl
  | [], _ :: _ => .isFalse nofun
  | _ :: _, [] => .isFalse nofun
  | v :: r, v' :: r' =>
      match Node.decEq v v', Node.decEqSeq r r' with
      | .isTrue hv, .isTrue hr => .isTrue (by rw [hv, hr])
      | .isFalse hv, _ =>
          .isFalse (by intro hc; injection hc with h1 h2; exact hv h1)
      | _, .isFalse hr =>
          .isFalse (by intro hc; injection hc with h1 h2; exact hr h2)

end

instance : DecidableEq Node := Node.decEq

/-- Modelled from the spec: the resolved merge options of a run
(spec section 3, MergerConfig), with the hard-coded system defaults of
spec section 4.2: hash DEEP, array ALL, aoh ALL, anchors STOP.
`aohIdentityKey` is the configured identity-key declaration applying at the
merged array-of-hashes location, `none` when unconfigured. -/
structure MergerConfig where
  hashPolicy : HashMergeOpts := .deep
  arrayPolicy : ArrayMergeOpts := .all
  aohPolicy : AoHMergeOpts := .all
  anchorPolicy : AnchorConflictResolutions := .stop
  aohIdentityKey : Option String := none
deriving DecidableEq, Repr

/-- The configuration with every policy at its documented default. -/
def defaultConfig : MergerConfig := {}

/-- Look a key up in an ordered mapping, first occurrence wins. -/
def lookupKey (k : String) : List (String × Node) → Option Node
  | [] => none
  | (k', v) :: rest => if k' = k then some v else lookupKey k rest

/-- Replace the value at the first occurrence of a key in an ordered
mapping, keeping its position; entries without the key are unchanged. -/
def setKey (k : String) (v : Node) : List (String × Node) → List (String × Node)
  | [] => []
  | (k', v') :: rest =>
      if k' = k then (k', v) :: rest else (k', v') :: setKey k v rest

/-- The keys of an ordered mapping, in order. -/
def keysOf (l : List (String × Node)) : List String := l.map Prod.fst

/-- Whether a node is a mapping. -/
def isMappingNode : Node → Bool
  | .mapping _ => true
  | _ => false

/-- Modelled from the spec: an Array-of-Hashes is a non-empty sequence whose
elements are all mappings (spec glossary). -/
def isAoH (items : List Node) : Bool :=
  !items.isEmpty && items.all isMappingNode

/-- Whether an array-of-hashes element carries the identity key. -/
def hasIdKey (k : String) : Node → Bool
  | .mapping es => (lookupKey k es).isSome
  | _ => false

/-- The identity-key value of an array-of-hashes element, when present. -/
def idValue (k : String) : Node → Option Node
  | .mapping es => lookupKey k es
  | _ => none

/-- Whether a record is flat: a mapping all of whose values are scalars. -/
def flatRecord : Node → Bool
  | .mapping es => es.all fun kv => match kv.2 with | .scalar _ => true | _ => false
  | _ => false

/-- Modelled from the spec: UNIQUE array merging (spec section 4.1,
Sequence policy UNIQUE): concatenate, then drop elements of the RHS
contribution that are value-equal to an already-present element,
preserving first-seen order. -/
def uniqueInto (acc : List Node) : List Node → List Node
  | [] => acc
  | e :: rest => if e ∈ acc then uniqueInto acc rest else uniqueInto (acc ++ [e]) rest

/-- Modelled from the spec: plain Sequence-to-Sequence merging under the
array policy (spec section 4.1). -/
def mergeArray (cfg : MergerConfig) (l r : List Node) : Except MergeError (List Node) :=
  match cfg.arrayPolicy with
  | .stop => .error .arrayStop
  | .left => .ok l
  | .right => .ok r
  | .all => .ok (l ++ r)
  | .unique => .ok (uniqueInto l r)

/-- The entries of the first element of an array-of-hashes that is a
mapping (the first record). -/
def firstRecordEntries : List Node → Option (List (String × Node))
  | [] => none
  | .mapping es :: _ => some es
  | _ :: rest => firstRecordEntries rest

/-- Modelled from the spec: the identity key of an AoH DEEP merge is the
configured identity-key declaration for the location, defaulting to the
first attribute name of the first record when unconfigured (spec section
4.1; the LHS set is consulted first, then the RHS as in
`test_merge_deep_aoh_inferred_rhs_key`). -/
def identityKey (cfg : MergerConfig) (l r : List Node) : String :=
  match cfg.aohIdentityKey with
  | some k => k
  | none =>
      match firstRecordEntries l with
      | some ((k, _) :: _) => k
      | _ =>
          match firstRecordEntries r with
          | some ((k, _) :: _) => k
          | _ => ""

/-- Find the first element of the accumulating array that is a mapping whose
identity-key value equals the given one, returning the elements before it,
its entries, and the elements after it. -/
def findIdMatch (idKey : String) (idv : Node) :
    List Node → Option (List Node × List (String × Node) × List Node)
  | [] => none
  | e :: rest =>
      match e with
      | .mapping le =>
          if lookupKey idKey le = some idv then some ([], le, rest)
          else
            match findIdMatch idKey idv rest with
            | some (b, m, a) => some (e :: b, m, a)
            | none => none
      | _ =>
          match findIdMatch idKey idv rest with
          | some (b, m, a) => some (e :: b, m, a)
          | none => none

/-- Key-wise merging of a record whose RHS values are scalars: every RHS
field overwrites the LHS field of the same name in place, and fields new to
the RHS are appended.  This is what the DEEP merge computes on flat
records. -/
def mergeFlat (acc : List (String × Node)) : List (String × Node) → List (String × Node)
  | [] => acc
  | (k, v) :: rest =>
      match lookupKey k acc with
      | some _ => mergeFlat (setKey k v acc) rest
      | none => mergeFlat (acc ++ [(k, v)]) rest

mutual

/-- Modelled from the spec: the recursive node-type dispatch of the merge
engine (spec section 4.1), merging an RHS value into an LHS value once the
merge point has been entered: scalars replace, mappings merge under the
hash policy, sequences merge under the array or array-of-hashes policy,
and structural mismatches fail. -/
def mergeValues (cfg : MergerConfig) : Node → Node → Except MergeError Node
  | _, .scalar v => .ok (.scalar v)
  | .mapping le, .mapping re =>
      match cfg.hashPolicy with
      | .stop => .error .hashStop
      | .left => .ok (.mapping le)
      | .right => .ok (.mapping re)
      | .deep =>
          match mergeMappingDeep cfg le re with
          | .ok m => .ok (.mapping m)
          | .error e => .error e
  | _, .mapping _ => .error .hashIntoNonHash
  | .sequence li, .sequence ri =>
      if isAoH ri then
        match cfg.aohPolicy with
        | .stop => .error .aohStop
        | .left => .ok (.sequence li)
        | .right => .ok (.sequence ri)
        | .all => .ok (.sequence (li ++ ri))
        | .unique => .ok (.sequence (uniqueInto li ri))
        | .deep =>
            let k := identityKey cfg li ri
            if ri.all (hasIdKey k) then
              match mergeAoHDeep cfg k li ri with
              | .ok res => .ok (.sequence res)
              | .error e => .error e
            else .error (.mandatoryKey k)
      else
        match mergeArray cfg li ri with
        | .ok res => .ok (.sequence res)
        | .error e => .error e
  | _, .sequence ri =>
      .error (if isAoH ri then .aohIntoNonArray else .arrayIntoNonArray)

/-- Modelled from the spec: DEEP Mapping-to-Mapping merging (spec section
4.1): keys unique to the LHS are kept, keys unique to the RHS are appended,
keys in both are merged recursively through the node-type dispatch. -/
def mergeMappingDeep (cfg : MergerConfig) (acc : List (String × Node)) :
    List (String × Node) → Except MergeError (List (String × Node))
  | [] => .ok acc
  | (k, v) :: rest =>
      match lookupKey k acc with
      | some lv =>
          match mergeValues cfg lv v with
          | .ok mv => mergeMappingDeep cfg (setKey k mv acc) rest
          | .error e => .error e
      | none => mergeMappingDeep cfg (acc ++ [(k, v)]) rest

/-- Modelled from the spec: DEEP Array-of-Hashes merging (spec section 4.1):
each RHS record is matched by identity-key value against the accumulating
array; a matched element is deep-merged in place, an unmatched record is
appended.  Identity-key presence has already been checked. -/
def mergeAoHDeep (cfg : MergerConfig) (idKey : String) (acc : List Node) :
    List Node → Except MergeError (List Node)
  | [] => .ok acc
  | e :: rest =>
      match e with
      | .mapping re =>
          match lookupKey idKey re with
          | some idv =>
              match findIdMatch idKey idv acc with
              | some (before, le, after) =>
                  match mergeMappingDeep cfg le re with
                  | .ok merged =>
                      mergeAoHDeep cfg idKey (before ++ [.mapping merged] ++ after) rest
                  | .error err => .error err
              | none => mergeAoHDeep cfg idKey (acc ++ [.mapping re]) rest
          | none => .error (.mandatoryKey idKey)
      | _ => .error (.mandatoryKey idKey)

end

/-- Modelled from the spec: the merge-point dispatch of `merge_with`
(spec section 4.1).  It differs from the recursive dispatch in exactly the
two permitted merge-point cases: a scalar RHS is appended to a Sequence
target (and refused with a Scalar message by a Mapping target), and a
Mapping RHS is appended to a Sequence target as a single opaque element. -/
def merge_with (cfg : MergerConfig) (lhs rhs : Node) : Except MergeError Node :=
  match rhs, lhs with
  | .scalar v, .sequence items => .ok (.sequence (items ++ [.scalar v]))
  | .scalar v, .mapping _ => .error (.scalarIntoHash v)
  | .scalar v, .scalar _ => .ok (.scalar v)
  | .mapping re, .sequence items => .ok (.sequence (items ++ [.mapping re]))
  | .mapping _, _ => mergeValues cfg lhs rhs
  | .sequence _, _ => mergeValues cfg lhs rhs

instance {ε α : Type} [DecidableEq ε] [DecidableEq α] : DecidableEq (Except ε α) := fun a b =>
  match a, b with
  | .ok a, .ok b =>
      if h : a = b then .isTrue (by rw [h])
      else .isFalse (by intro hc; injection hc; contradiction)
  | .error a, .error b =>
      if h : a = b then .isTrue (by rw [h])
      else .isFalse (by intro hc; injection hc; contradiction)
  | .ok _, .error _ => .isFalse nofun
  | .error _, .ok _ => .isFalse nofun

/-! ## Anchor registry and conflict handling

Spec section 3 describes the anchor registry as a mapping from anchor name
to the anchored node, and section 9 recommends representing aliases as
reference nodes holding a lookup key into that registry.  The model below
follows that design: a document is a tree together with a registry of its
anchors, and anchor conflict handling is a phase of `merge_with` that runs
over the two registries before the trees are merged. -/

/-- An anchor registry: anchor names bound to their nodes, in document
order. -/
def AnchorRegistry : Type := List (String × Node)

/-- Modelled from the spec: the first RHS anchor whose name is already
bound in the LHS registry to a different value (a genuine anchor
conflict; identically valued anchors of the same name are not conflicts,
as in `test_merge_with_defaults_nonconflict_scalar_anchors`). -/
def firstAnchorConflict (lhsA : List (String × Node)) :
    List (String × Node) → Option String
  | [] => none
  | (n, v) :: rest =>
      match lookupKey n lhsA with
      | some lv => if lv = v then firstAnchorConflict lhsA rest else some n
      | none => firstAnchorConflict lhsA rest

/-- Modelled from the spec: anchor handling of `merge_with` under the STOP
anchor policy (spec section 4.1, Anchors): fail on the first anchor
conflict, otherwise combine the registries (RHS anchors new to the LHS are
added; same-named identical anchors are shared). -/
def combineAnchorsStop (lhsA rhsA : List (String × Node)) :
    Except MergeError (List (String × Node)) :=
  match firstAnchorConflict lhsA rhsA with
  | some n => .error (.anchorConflict n)
  | none => .ok (lhsA ++ rhsA.filter fun nv => (lookupKey nv.1 lhsA).isNone)

/-- Modelled from the spec: the anchor policy resolution of the command
line (`yaml_merge.py` `processcli`: "means by which Anchor name conflicts
are resolved ... default=stop"): an unset option resolves to STOP. -/
def resolveAnchorPolicy (arg : Option AnchorConflictResolutions) :
    AnchorConflictResolutions :=
  arg.getD .stop

/-- Modelled from the spec: `merge_with` under the default (STOP) anchor
configuration: the anchor phase runs over the registries first, then the
trees are merged at the merge point. -/
def merge_with_stop_anchors (cfg : MergerConfig)
    (lhsA : List (String × Node)) (lhs : Node)
    (rhsA : List (String × Node)) (rhs : Node) :
    Except MergeError (List (String × Node) × Node) :=
  match combineAnchorsStop lhsA rhsA with
  | .error e => .error e
  | .ok reg =>
      match merge_with cfg lhs rhs with
      | .ok merged => .ok (reg, merged)
      | .error e => .error e

/-! ## Anchor renaming under the RENAME policy

For the RENAME policy the documents must be represented with their alias
references explicit, so that repointing is observable.  Spec section 9:
aliases are reference nodes holding the anchor name. -/

/-- Modelled from the spec: a document tree in which anchors are declared
at nodes and aliases are explicit named references (spec sections 3
and 9). -/
inductive ANode where
  | scalar (anchor : Option String) (v : String)
  | aliasRef (name : String)
  | mapping (anchor : Option String) (entries : List (String × ANode))
  | sequence (anchor : Option String) (items : List ANode)

/-- The anchor names declared in a document, in document order. -/
def anchorDecls : ANode → List String
  | .scalar a _ => a.toList
  | .aliasRef _ => []
  | .mapping a es =>
      a.toList ++ (es.attach.map fun kv => anchorDecls kv.1.2).flatten
  | .sequence a xs =>
      a.toList ++ (xs.attach.map fun x => anchorDecls x.1).flatten
decreasing_by
  · obtain ⟨⟨k, v⟩, hm⟩ := kv
    have := List.sizeOf_lt_of_mem hm
    simp at this ⊢
    omega
  · have := List.sizeOf_lt_of_mem x.2
    simp
    omega

/-- The alias references appearing in a document, in document order. -/
def aliasRefs : ANode → List String
  | .scalar _ _ => []
  | .aliasRef n => [n]
  | .mapping _ es => (es.attach.map fun kv => aliasRefs kv.1.2).flatten
  | .sequence _ xs => (xs.attach.map fun x => aliasRefs x.1).flatten
decreasing_by
  · obtain ⟨⟨k, v⟩, hm⟩ := kv
    have := List.sizeOf_lt_of_mem hm
    simp at this ⊢
    omega
  · have := List.sizeOf_lt_of_mem x.2
    simp
    omega

/-- Modelled from the spec: rename one anchor throughout a document:
its declaration takes the new name and every alias reference to the old
name is repointed to the new name (spec section 4.1, Anchors, RENAME). -/
def renameAnchor (old new : String) : ANode → ANode
  | .scalar a v => .scalar (if a = some old then some new else a) v
  | .aliasRef n => .aliasRef (if n = old then new else n)
  | .mapping a es =>
      .mapping (if a = some old then some new else a)
        (es.attach.map fun kv => (kv.1.1, renameAnchor old new kv.1.2))
  | .sequence a xs =>
      .sequence (if a = some old then some new else a)
        (xs.attach.map fun x => renameAnchor old new x.1)
decreasing_by
  · obtain ⟨⟨k, v⟩, hm⟩ := kv
    have := List.sizeOf_lt_of_mem hm
    simp at this ⊢
    omega
  · have := List.sizeOf_lt_of_mem x.2
    simp
    omega

/-- The decimal digit characters of a natural number. -/
def natSuffix (i : Nat) : String :=
  String.mk (((Nat.digits 10 i).reverse).map fun d => Char.ofNat (48 + d))

/-- Modelled from the spec: the candidate replacement names tried under the
RENAME policy: the name itself, then `name_1`, `name_2`, and so on
(spec section 4.1, Anchors, RENAME). -/
def candidateName (base : String) (i : Nat) : String :=
  base ++ "_" ++ natSuffix i

/-- Search, starting at suffix `i` and with the given fuel, for the first
numeric suffix making the candidate name free of the used names. -/
def findFreeSuffix (used : List String) (base : String) : Nat → Nat → Option Nat
  | 0, _ => none
  | fuel + 1, i =>
      if candidateName base i ∈ used then findFreeSuffix used base fuel (i + 1)
      else some i

/-- Modelled from the spec: the non-colliding replacement name chosen under
the RENAME policy: the first of `name_1`, `name_2`, ... not among the used
anchor names (spec section 4.1, Anchors, RENAME).  The search over
`used.length + 1` candidates always succeeds; the fallback is never
reached. -/
def freshAnchorName (used : List String) (base : String) : String :=
  match findFreeSuffix used base (used.length + 1) 1 with
  | some i => candidateName base i
  | none => base

/-- Modelled from the spec: resolution of one RHS anchor-name collision
under the RENAME policy: when the RHS declares an anchor name that the LHS
also declares, the RHS anchor is renamed to a fresh name (and all its RHS
references repointed); the LHS document is not touched (spec section 4.1,
Anchors, RENAME). -/
def resolveRenameConflict (lhs rhs : ANode) (base : String) : ANode × ANode :=
  if base ∈ anchorDecls lhs ∧ base ∈ anchorDecls rhs then
    (lhs, renameAnchor base
      (freshAnchorName (anchorDecls lhs ++ anchorDecls rhs) base) rhs)
  else (lhs, rhs)

/-! ## NodeCoords.unwrap_node_coords

This part is embedded directly from `yamlpath/wrappers/nodecoords.py`:
`PyData` models the dynamically typed values `unwrap_node_coords` can
receive (a NodeCoords wrapper with its node, parent and parentref, a
Python list, a Python dict, or any other value, modelled as a scalar). -/

/-- A dynamically typed value reaching `NodeCoords.unwrap_node_coords`:
a scalar (any non-collection, non-NodeCoords value), a list, a dict, or a
`NodeCoords` wrapper carrying the wrapped node together with its parent
and parentref coordinates. -/
inductive PyData where
  | scalar (v : String)
  | list (items : List PyData)
  | dict (entries : List (String × PyData))
  | nodeCoords (node : PyData) (parent : Option PyData) (parentref : Option String)

/-- Embedded from `yamlpath/wrappers/nodecoords.py`,
`NodeCoords.unwrap_node_coords`: a NodeCoords is unwrapped recursively
through its `node`, a list is rebuilt from its recursively stripped
elements, and any other value is returned unchanged. -/
def unwrap_node_coords : PyData → PyData
  | .nodeCoords node _ _ => unwrap_node_coords node
  | .list items => .list (items.attach.map fun e => unwrap_node_coords e.1)
  | other => other
decreasing_by
  · simp
    omega
  · have := List.sizeOf_lt_of_mem e.2
    simp
    omega

/-- Whether a value contains a NodeCoords wrapper anywhere. -/
def hasNodeCoords : PyData → Bool
  | .scalar _ => false
  | .list [] => false
  | .list (x :: xs) => hasNodeCoords x || hasNodeCoords (.list xs)
  | .dict [] => false
  | .dict (kv :: es) => hasNodeCoords kv.2 || hasNodeCoords (.dict es)
  | .nodeCoords _ _ _ => true
decreasing_by
  all_goals try obtain ⟨k, v⟩ := kv
  all_goals simp
  all_goals omega

/-- Whether every dict inside a value is free of NodeCoords wrappers
(beneath the dict, at any depth). -/
def dictsClean : PyData → Bool
  | .scalar _ => true
  | .list [] => true
  | .list (x :: xs) => dictsClean x && dictsClean (.list xs)
  | .dict entries => !hasNodeCoords (.dict entries)
  | .nodeCoords node _ _ => dictsClean node
decreasing_by
  all_goals simp
  all_goals omega

/-! ## Basic lemmas on ordered-mapping operations -/

theorem lookupKey_append_left {k : String} {a : List (String × Node)} {v : Node}
    (b : List (String × Node)) (h : lookupKey k a = some v) :
    lookupKey k (a ++ b) = some v := by
  induction a with
  | nil => simp [lookupKey] at h
  | cons kv rest ih =>
      obtain ⟨k', v'⟩ := kv
      simp only [lookupKey, List.cons_append] at h ⊢
      by_cases hk : k' = k
      · simpa [hk] using h
      · simp only [hk, if_false] at h ⊢
        exact ih h

theorem lookupKey_append_right {k : String} {a : List (String × Node)}
    (b : List (String × Node)) (h : lookupKey k a = none) :
    lookupKey k (a ++ b) = lookupKey k b := by
  induction a with
  | nil => simp
  | cons kv rest ih =>
      obtain ⟨k', v'⟩ := kv
      simp only [lookupKey, List.cons_append] at h ⊢
      by_cases hk : k' = k
      · simp [hk] at h
      · simp only [hk, if_false] at h ⊢
        exact ih h

theorem lookupKey_singleton_ne {q k : String} {v : Node} (h : q ≠ k) :
    lookupKey q [(k, v)] = none := by
  have h1 : ¬ k = q := fun hc => h hc.symm
  simp [lookupKey, h1]

theorem lookupKey_append_single_ne {q k : String} {v : Node}
    (a : List (String × Node)) (h : q ≠ k) :
    lookupKey q (a ++ [(k, v)]) = lookupKey q a := by
  cases hq : lookupKey q a with
  | some w => exact lookupKey_append_left _ hq
  | none =>
      rw [lookupKey_append_right _ hq]
      exact lookupKey_singleton_ne h

theorem lookupKey_append_single_self {k : String} {v : Node}
    {a : List (String × Node)} (h : lookupKey k a = none) :
    lookupKey k (a ++ [(k, v)]) = some v := by
  rw [lookupKey_append_right _ h]
  simp [lookupKey]

theorem lookupKey_setKey_ne {q k : String} {v : Node}
    (l : List (String × Node)) (h : q ≠ k) :
    lookupKey q (setKey k v l) = lookupKey q l := by
  induction l with
  | nil => simp [setKey]
  | cons kv rest ih =>
      obtain ⟨k', v'⟩ := kv
      simp only [setKey]
      by_cases hk : k' = k
      · subst hk
        have h1 : ¬ k' = q := fun hc => h hc.symm
        simp [lookupKey, h1]
      · simp only [hk, if_false, lookupKey]
        by_cases hq : k' = q
        · simp [hq]
        · simp [hq, ih]

theorem lookupKey_setKey_self {k : String} {v lv : Node}
    {l : List (String × Node)} (h : lookupKey k l = some lv) :
    lookupKey k (setKey k v l) = some v := by
  induction l with
  | nil => simp [lookupKey] at h
  | cons kv rest ih =>
      obtain ⟨k', v'⟩ := kv
      simp only [lookupKey, setKey] at h ⊢
      by_cases hk : k' = k
      · simp [hk, lookupKey]
      · simp only [hk, if_false, lookupKey] at h ⊢
        exact ih h

theorem keysOf_setKey (k : String) (v : Node) (l : List (String × Node)) :
    keysOf (setKey k v l) = keysOf l := by
  induction l with
  | nil => simp [setKey]
  | cons kv rest ih =>
      obtain ⟨k', v'⟩ := kv
      simp only [setKey]
      by_cases hk : k' = k
      · simp [hk, keysOf]
      · simp only [hk, if_false, keysOf, List.map_cons]
        simp only [keysOf] at ih
        rw [ih]

theorem lookupKey_none_iff {k : String} {l : List (String × Node)} :
    lookupKey k l = none ↔ k ∉ keysOf l := by
  induction l with
  | nil => simp [lookupKey, keysOf]
  | cons kv rest ih =>
      obtain ⟨k', v'⟩ := kv
      by_cases hk : k' = k
      · subst hk
        simp [lookupKey, keysOf]
      · have h1 : ¬ k = k' := fun hc => hk hc.symm
        simp only [lookupKey, hk, if_false, keysOf, List.map_cons, List.mem_cons, not_or, h1,
          not_false_iff, true_and]
        simpa [keysOf] using ih

/-! ## Characterization of the DEEP mapping merge -/

/-- What a successful DEEP mapping merge computes, key by key: keys absent
from the RHS keep the accumulator's value, keys new to the accumulator take
the RHS value, keys in both take the recursively merged value, and the key
list is the accumulator's keys followed by the RHS's new keys in order. -/
theorem mergeMappingDeep_ok (cfg : MergerConfig) :
    ∀ (r : List (String × Node)), (keysOf r).Nodup →
    ∀ acc res, mergeMappingDeep cfg acc r = .ok res →
      (∀ q, lookupKey q r = none → lookupKey q res = lookupKey q acc) ∧
      (∀ q v, lookupKey q r = some v → lookupKey q acc = none →
        lookupKey q res = some v) ∧
      (∀ q v lv, lookupKey q r = some v → lookupKey q acc = some lv →
        ∃ mv, mergeValues cfg lv v = .ok mv ∧ lookupKey q res = some mv) ∧
      keysOf res = keysOf acc
        ++ (keysOf r).filter fun q => (lookupKey q acc).isNone := by
  intro r
  induction r with
  | nil =>
      intro _ acc res h
      simp only [mergeMappingDeep] at h
      injection h with h
      subst h
      refine ⟨fun q _ => rfl, ?_, ?_, ?_⟩
      · intro q v hq
        simp [lookupKey] at hq
      · intro q v lv hq
        simp [lookupKey] at hq
      · simp [keysOf]
  | cons kv rest ih =>
      obtain ⟨k, v⟩ := kv
      intro hnd acc res h
      have hins : k ∉ keysOf rest ∧ (keysOf rest).Nodup := by
        simpa [keysOf] using hnd
      have hrest_none : lookupKey k rest = none := lookupKey_none_iff.mpr hins.1
      cases hacc : lookupKey k acc with
      | some lv =>
          simp only [mergeMappingDeep, hacc] at h
          cases hmv : mergeValues cfg lv v with
          | error e => simp [hmv] at h
          | ok mv =>
              simp only [hmv] at h
              obtain ⟨ih1, ih2, ih3, ihk⟩ := ih hins.2 (setKey k mv acc) res h
              refine ⟨?_, ?_, ?_, ?_⟩
              · intro q hq
                simp only [lookupKey] at hq
                by_cases hkq : k = q
                · simp [hkq] at hq
                · simp only [hkq, if_false] at hq
                  rw [ih1 q hq, lookupKey_setKey_ne _ (fun hc => hkq hc.symm)]
              · intro q v0 hq hqa
                simp only [lookupKey] at hq
                by_cases hkq : k = q
                · rw [← hkq] at hqa
                  rw [hqa] at hacc
                  cases hacc
                · simp only [hkq, if_false] at hq
                  refine ih2 q v0 hq ?_
                  rw [lookupKey_setKey_ne _ (fun hc => hkq hc.symm)]
                  exact hqa
              · intro q v0 lv0 hq hqa
                simp only [lookupKey] at hq
                by_cases hkq : k = q
                · subst hkq
                  simp only [if_pos rfl] at hq
                  injection hq with hq
                  subst hq
                  rw [hqa] at hacc
                  injection hacc with hacc
                  subst hacc
                  refine ⟨mv, hmv, ?_⟩
                  rw [ih1 k hrest_none]
                  exact lookupKey_setKey_self hqa
                · simp only [hkq, if_false] at hq
                  refine ih3 q v0 lv0 hq ?_
                  rw [lookupKey_setKey_ne _ (fun hc => hkq hc.symm)]
                  exact hqa
              · rw [ihk, keysOf_setKey]
                have hfc : (keysOf rest).filter
                      (fun q => (lookupKey q (setKey k mv acc)).isNone)
                    = (keysOf rest).filter fun q => (lookupKey q acc).isNone := by
                  refine List.filter_congr ?_
                  intro q hq
                  have hqk : q ≠ k := fun hc => hins.1 (hc ▸ hq)
                  rw [lookupKey_setKey_ne _ hqk]
                rw [hfc]
                have : (keysOf ((k, v) :: rest)).filter
                      (fun q => (lookupKey q acc).isNone)
                    = (keysOf rest).filter fun q => (lookupKey q acc).isNone := by
                  simp [keysOf, hacc]
                rw [this]
      | none =>
          simp only [mergeMappingDeep, hacc] at h
          obtain ⟨ih1, ih2, ih3, ihk⟩ := ih hins.2 (acc ++ [(k, v)]) res h
          refine ⟨?_, ?_, ?_, ?_⟩
          · intro q hq
            simp only [lookupKey] at hq
            by_cases hkq : k = q
            · simp [hkq] at hq
            · simp only [hkq, if_false] at hq
              rw [ih1 q hq, lookupKey_append_single_ne _ (fun hc => hkq hc.symm)]
          · intro q v0 hq hqa
            simp only [lookupKey] at hq
            by_cases hkq : k = q
            · subst hkq
              simp only [if_pos rfl] at hq
              injection hq with hq
              subst hq
              rw [ih1 k hrest_none]
              exact lookupKey_append_single_self hacc
            · simp only [hkq, if_false] at hq
              refine ih2 q v0 hq ?_
              rw [lookupKey_append_single_ne _ (fun hc => hkq hc.symm)]
              exact hqa
          · intro q v0 lv0 hq hqa
            simp only [lookupKey] at hq
            by_cases hkq : k = q
            · rw [← hkq] at hqa
              rw [hqa] at hacc
              cases hacc
            · simp only [hkq, if_false] at hq
              refine ih3 q v0 lv0 hq ?_
              rw [lookupKey_append_single_ne _ (fun hc => hkq hc.symm)]
              exact hqa
          · rw [ihk]
            have hfc : (keysOf rest).filter
                  (fun q => (lookupKey q (acc ++ [(k, v)])).isNone)
                = (keysOf rest).filter fun q => (lookupKey q acc).isNone := by
              refine List.filter_congr ?_
              intro q hq
              have hqk : q ≠ k := fun hc => hins.1 (hc ▸ hq)
              rw [lookupKey_append_single_ne _ hqk]
            rw [hfc]
            have hkeys : keysOf (acc ++ [(k, v)]) = keysOf acc ++ [k] := by
              simp [keysOf]
            rw [hkeys]
            have : (keysOf ((k, v) :: rest)).filter
                  (fun q => (lookupKey q acc).isNone)
                = k :: ((keysOf rest).filter fun q => (lookupKey q acc).isNone) := by
              simp [keysOf, hacc]
            rw [this]
            simp

/-- A scalar RHS always merges by replacement, whatever the LHS. -/
theorem mergeValues_scalar (cfg : MergerConfig) (l : Node) (v : String) :
    mergeValues cfg l (.scalar v) = .ok (.scalar v) := by
  cases l <;> simp [mergeValues]

/-- On a flat RHS record every field merge is a scalar replacement, so the
DEEP mapping merge always succeeds and computes `mergeFlat`. -/
theorem mergeMappingDeep_flat (cfg : MergerConfig) :
    ∀ (r acc : List (String × Node)), (∀ kv ∈ r, ∃ s, kv.2 = Node.scalar s) →
      mergeMappingDeep cfg acc r = .ok (mergeFlat acc r) := by
  intro r
  induction r with
  | nil => intro acc _; simp [mergeMappingDeep, mergeFlat]
  | cons kv rest ih =>
      obtain ⟨k, v⟩ := kv
      intro acc hflat
      obtain ⟨s, hs⟩ := hflat (k, v) (by simp)
      simp only at hs
      subst hs
      have hrest : ∀ kv ∈ rest, ∃ s, kv.2 = Node.scalar s :=
        fun kv hm => hflat kv (by simp [hm])
      cases hacc : lookupKey k acc with
      | some lv =>
          simp only [mergeMappingDeep, mergeFlat, hacc, mergeValues_scalar]
          exact ih _ hrest
      | none =>
          simp only [mergeMappingDeep, mergeFlat, hacc]
          exact ih _ hrest

/-! ## Characterization of the UNIQUE array merge -/

/-- The UNIQUE merge appends to the LHS a duplicate-free selection of the
RHS elements: a sublist of the RHS none of whose elements is already in
the LHS, which together with the LHS covers every RHS element. -/
theorem uniqueInto_spec :
    ∀ (r acc : List Node), ∃ r',
      uniqueInto acc r = acc ++ r' ∧ r'.Sublist r ∧ (∀ e ∈ r', e ∉ acc) ∧
      r'.Nodup ∧ ∀ e ∈ r, e ∈ acc ∨ e ∈ r' := by
  intro r
  induction r with
  | nil => intro acc; exact ⟨[], by simp [uniqueInto], by simp, by simp, by simp, by simp⟩
  | cons e rest ih =>
      intro acc
      by_cases he : e ∈ acc
      · obtain ⟨r', h1, h2, h3, h4, h5⟩ := ih acc
        refine ⟨r', ?_, h2.cons _, h3, h4, ?_⟩
        · simpa [uniqueInto, he] using h1
        · intro x hx
          rcases List.mem_cons.mp hx with hx | hx
          · subst hx; exact Or.inl he
          · exact h5 x hx
      · obtain ⟨r', h1, h2, h3, h4, h5⟩ := ih (acc ++ [e])
        refine ⟨e :: r', ?_, h2.cons₂ _, ?_, ?_, ?_⟩
        · simp only [uniqueInto, he, if_false]
          rw [h1, List.append_assoc]
          rfl
        · intro x hx
          rcases List.mem_cons.mp hx with hx | hx
          · subst hx; exact he
          · intro hxa
            exact h3 x hx (by simp [hxa])
        · refine List.nodup_cons.mpr ⟨?_, h4⟩
          intro hmem
          exact h3 e hmem (by simp)
        · intro x hx
          rcases List.mem_cons.mp hx with hx | hx
          · subst hx; simp
          · rcases h5 x hx with h | h
            · rcases List.mem_append.mp h with h | h
              · exact Or.inl h
              · simp only [List.mem_singleton] at h
                subst h
                simp
            · simp [h]

/-! ## Characterization of the DEEP Array-of-Hashes merge -/

/-- The first RHS record whose identity-key value is the given one. -/
def findRecord (k : String) (idv : Node) : List Node → Option (List (String × Node))
  | [] => none
  | .mapping re :: rest =>
      if lookupKey k re = some idv then some re else findRecord k idv rest
  | _ :: rest => findRecord k idv rest

/-- How one element of the LHS array looks after the DEEP AoH merge: an
element whose identity-key value is carried by some RHS record is replaced
in place by the field-wise merge with the first such record; any other
element is kept as-is. -/
def aohUpdate (k : String) (r : List Node) (e : Node) : Node :=
  match e with
  | .mapping le =>
      match lookupKey k le with
      | some idv =>
          match findRecord k idv r with
          | some re => .mapping (mergeFlat le re)
          | none => e
      | none => e
  | _ => e

/-- The RHS records whose identity-key value matches no LHS element, in
their original order; the DEEP AoH merge appends them. -/
def aohNewRecords (k : String) (l r : List Node) : List Node :=
  r.filter fun re => !(l.any fun e => decide (idValue k e = idValue k re))

theorem findIdMatch_some (idKey : String) (idv : Node) :
    ∀ (acc b : List Node) (m : List (String × Node)) (a : List Node),
      findIdMatch idKey idv acc = some (b, m, a) →
      acc = b ++ [Node.mapping m] ++ a ∧ lookupKey idKey m = some idv ∧
        ∀ e ∈ b, idValue idKey e ≠ some idv := by
  intro acc
  induction acc with
  | nil => intro b m a h; simp [findIdMatch] at h
  | cons e rest ih =>
      intro b m a h
      cases e with
      | mapping le =>
          by_cases hm : lookupKey idKey le = some idv
          · simp only [findIdMatch, hm, if_pos] at h
            injection h with h
            injection h with h1 h
            injection h with h2 h3
            subst h1; subst h2; subst h3
            exact ⟨by simp, hm, by simp⟩
          · simp only [findIdMatch, hm, if_false] at h
            cases hrec : findIdMatch idKey idv rest with
            | none => rw [hrec] at h; cases h
            | some bma =>
                obtain ⟨b', m', a'⟩ := bma
                rw [hrec] at h
                injection h with h
                injection h with h1 h
                injection h with h2 h3
                subst h1; subst h2; subst h3
                obtain ⟨hacc, hlm, hb⟩ := ih b' m' a' hrec
                refine ⟨by simp [hacc], hlm, ?_⟩
                intro x hx
                rcases List.mem_cons.mp hx with hx | hx
                · subst hx; simpa [idValue] using hm
                · exact hb x hx
      | scalar v =>
          simp only [findIdMatch] at h
          cases hrec : findIdMatch idKey idv rest with
          | none => rw [hrec] at h; cases h
          | some bma =>
              obtain ⟨b', m', a'⟩ := bma
              rw [hrec] at h
              injection h with h
              injection h with h1 h
              injection h with h2 h3
              subst h1; subst h2; subst h3
              obtain ⟨hacc, hlm, hb⟩ := ih b' m' a' hrec
              refine ⟨by simp [hacc], hlm, ?_⟩
              intro x hx
              rcases List.mem_cons.mp hx with hx | hx
              · subst hx; simp [idValue]
              · exact hb x hx
      | sequence xs =>
          simp only [findIdMatch] at h
          cases hrec : findIdMatch idKey idv rest with
          | none => rw [hrec] at h; cases h
          | some bma =>
              obtain ⟨b', m', a'⟩ := bma
              rw [hrec] at h
              injection h with h
              injection h with h1 h
              injection h with h2 h3
              subst h1; subst h2; subst h3
              obtain ⟨hacc, hlm, hb⟩ := ih b' m' a' hrec
              refine ⟨by simp [hacc], hlm, ?_⟩
              intro x hx
              rcases List.mem_cons.mp hx with hx | hx
              · subst hx; simp [idValue]
              · exact hb x hx

theorem findIdMatch_none (idKey : String) (idv : Node) :
    ∀ (acc : List Node), findIdMatch idKey idv acc = none →
      ∀ e ∈ acc, idValue idKey e ≠ some idv := by
  intro acc
  induction acc with
  | nil => intro _ e he; simp at he
  | cons e rest ih =>
      intro h x hx
      cases e with
      | mapping le =>
          by_cases hm : lookupKey idKey le = some idv
          · simp [findIdMatch, hm] at h
          · simp only [findIdMatch, hm, if_false] at h
            cases hrec : findIdMatch idKey idv rest with
            | some bma => rw [hrec] at h; obtain ⟨b', m', a'⟩ := bma; cases h
            | none =>
                rcases List.mem_cons.mp hx with hx | hx
                · subst hx; simpa [idValue] using hm
                · exact ih hrec x hx
      | scalar v =>
          simp only [findIdMatch] at h
          cases hrec : findIdMatch idKey idv rest with
          | some bma => rw [hrec] at h; obtain ⟨b', m', a'⟩ := bma; cases h
          | none =>
              rcases List.mem_cons.mp hx with hx | hx
              · subst hx; simp [idValue]
              · exact ih hrec x hx
      | sequence xs =>
          simp only [findIdMatch] at h
          cases hrec : findIdMatch idKey idv rest with
          | some bma => rw [hrec] at h; obtain ⟨b', m', a'⟩ := bma; cases h
          | none =>
              rcases List.mem_cons.mp hx with hx | hx
              · subst hx; simp [idValue]
              · exact ih hrec x hx

theorem findRecord_none (k : String) (idv : Node) :
    ∀ (r : List Node), (∀ e ∈ r, idValue k e ≠ some idv) →
      findRecord k idv r = none := by
  intro r
  induction r with
  | nil => intro _; rfl
  | cons e rest ih =>
      intro h
      cases e with
      | mapping re =>
          have hm : ¬ lookupKey k re = some idv := by
            simpa [idValue] using h (.mapping re) (by simp)
          simp only [findRecord, hm, if_false]
          exact ih fun x hx => h x (by simp [hx])
      | scalar v => exact ih fun x hx => h x (by simp [hx])
      | sequence xs => exact ih fun x hx => h x (by simp [hx])

/-- Looking up a key after a flat field-wise merge: fields present in the
RHS record take the RHS value, all other fields keep the accumulator's
value. -/
theorem lookupKey_mergeFlat (q : String) :
    ∀ (re acc : List (String × Node)), (keysOf re).Nodup →
      lookupKey q (mergeFlat acc re)
        = match lookupKey q re with
          | some w => some w
          | none => lookupKey q acc := by
  intro re
  induction re with
  | nil => intro acc _; simp [mergeFlat, lookupKey]
  | cons kv rest ih =>
      obtain ⟨k1, v1⟩ := kv
      intro acc hnd
      have hins : k1 ∉ keysOf rest ∧ (keysOf rest).Nodup := by
        simpa [keysOf] using hnd
      have hrest_none : lookupKey k1 rest = none := lookupKey_none_iff.mpr hins.1
      by_cases hq : k1 = q
      · subst hq
        simp only [lookupKey, if_pos rfl]
        cases hacc : lookupKey k1 acc with
        | some lv =>
            simp only [mergeFlat, hacc]
            rw [ih _ hins.2, hrest_none]
            exact lookupKey_setKey_self hacc
        | none =>
            simp only [mergeFlat, hacc]
            rw [ih _ hins.2, hrest_none]
            exact lookupKey_append_single_self hacc
      · have hq' : q ≠ k1 := fun hc => hq hc.symm
        simp only [lookupKey, hq, if_false]
        cases hacc : lookupKey k1 acc with
        | some lv =>
            simp only [mergeFlat, hacc]
            rw [ih _ hins.2]
            cases lookupKey q rest with
            | some w => rfl
            | none => exact lookupKey_setKey_ne _ hq'
        | none =>
            simp only [mergeFlat, hacc]
            rw [ih _ hins.2]
            cases lookupKey q rest with
            | some w => rfl
            | none => exact lookupKey_append_single_ne _ hq'

theorem aohUpdate_nil (k : String) (e : Node) : aohUpdate k [] e = e := by
  cases e with
  | mapping le =>
      cases h : lookupKey k le with
      | some idv => simp [aohUpdate, h, findRecord]
      | none => simp [aohUpdate, h]
  | scalar v => rfl
  | sequence xs => rfl

theorem aohUpdate_cons_ne {k : String} {idv : Node} {re : List (String × Node)}
    (rest : List Node) (x : Node) (hre : lookupKey k re = some idv)
    (h : idValue k x ≠ some idv) :
    aohUpdate k (Node.mapping re :: rest) x = aohUpdate k rest x := by
  cases x with
  | mapping lx =>
      cases hlx : lookupKey k lx with
      | some idvx =>
          have hne : ¬ lookupKey k re = some idvx := by
            rw [hre]
            intro hc
            injection hc with hc
            exact h (by simp [idValue, hlx, hc])
          simp [aohUpdate, hlx, findRecord, hne]
      | none => simp [aohUpdate, hlx]
  | scalar v => rfl
  | sequence xs => rfl

theorem aohUpdate_no_match {k : String} {re : List (String × Node)} {idv : Node}
    (r : List Node) (hre : lookupKey k re = some idv)
    (h : ∀ x ∈ r, idValue k x ≠ some idv) :
    aohUpdate k r (Node.mapping re) = Node.mapping re := by
  simp [aohUpdate, hre, findRecord_none k idv r h]

theorem any_idValue_map (k : String) (w : Option Node) :
    ∀ (l : List Node),
      (l.any fun x => decide (idValue k x = w))
        = (l.map (idValue k)).any fun y => decide (y = w)
  | [] => rfl
  | x :: rest => by
      simp only [List.any_cons, List.map_cons]
      rw [any_idValue_map k w rest]

theorem any_idValue_eq_of_map_eq {k : String} {acc acc' : List Node}
    (h : acc.map (idValue k) = acc'.map (idValue k)) (w : Option Node) :
    (acc.any fun x => decide (idValue k x = w))
      = acc'.any fun x => decide (idValue k x = w) := by
  rw [any_idValue_map, any_idValue_map, h]

theorem map_aohUpdate_nil (k : String) : ∀ (acc : List Node), acc.map (aohUpdate k []) = acc
  | [] => rfl
  | e :: rest => by
      simp only [List.map_cons, aohUpdate_nil]
      rw [map_aohUpdate_nil k rest]

/-- What a DEEP Array-of-Hashes merge over well-formed flat record sets
computes: every element of the accumulating array is updated in place
(field-merged with the first RHS record of equal identity-key value, when
one exists), and the RHS records matching no element are appended in their
original order. -/
theorem mergeAoHDeep_spec (cfg : MergerConfig) (k : String) :
    ∀ (r acc : List Node),
      (∀ e ∈ acc, hasIdKey k e = true) →
      (acc.map (idValue k)).Nodup →
      (∀ e ∈ r, ∃ re, e = Node.mapping re ∧ (lookupKey k re).isSome ∧
        (∀ kv ∈ re, ∃ s, kv.2 = Node.scalar s) ∧ (keysOf re).Nodup) →
      (r.map (idValue k)).Nodup →
      mergeAoHDeep cfg k acc r
        = .ok (acc.map (aohUpdate k r) ++ aohNewRecords k acc r) := by
  intro r
  induction r with
  | nil =>
      intro acc _ _ _ _
      simp [mergeAoHDeep, aohNewRecords, map_aohUpdate_nil]
  | cons e rest ih =>
      intro acc hKeys hNodup hr hrn
      obtain ⟨re, he, hkey, hflat, hknd⟩ := hr e (by simp)
      subst he
      obtain ⟨idv, hidv⟩ := Option.isSome_iff_exists.mp hkey
      have hrest : ∀ x ∈ rest, ∃ re', x = Node.mapping re' ∧
          (lookupKey k re').isSome ∧ (∀ kv ∈ re', ∃ s, kv.2 = Node.scalar s) ∧
          (keysOf re').Nodup :=
        fun x hx => hr x (List.mem_cons_of_mem _ hx)
      have hpair : some idv ∉ rest.map (idValue k) ∧ (rest.map (idValue k)).Nodup := by
        have h0 := hrn
        simp only [List.map_cons, List.nodup_cons] at h0
        simpa [idValue, hidv] using h0
      have hrest_ne : ∀ x ∈ rest, idValue k x ≠ some idv := by
        intro x hx hc
        exact hpair.1 (by rw [← hc]; exact List.mem_map_of_mem _ hx)
      simp only [mergeAoHDeep, hidv]
      cases hfind : findIdMatch k idv acc with
      | some bma =>
          obtain ⟨before, le, after⟩ := bma
          obtain ⟨hacc_eq, hle, hbefore⟩ :=
            findIdMatch_some k idv acc before le after hfind
          dsimp only
          rw [mergeMappingDeep_flat cfg re le hflat]
          dsimp only
          subst hacc_eq
          have hmid : lookupKey k (mergeFlat le re) = some idv := by
            rw [lookupKey_mergeFlat k re le hknd]
            simp [hidv]
          have hmap_decomp : (before ++ [Node.mapping le] ++ after).map (idValue k)
              = before.map (idValue k) ++ some idv :: after.map (idValue k) := by
            simp [idValue, hle]
          have hafter_ne : ∀ x ∈ after, idValue k x ≠ some idv := by
            have h2 := hNodup
            rw [hmap_decomp] at h2
            have h4 : some idv ∉ after.map (idValue k) :=
              (List.nodup_cons.mp (List.nodup_append.mp h2).2.1).1
            intro x hx hc
            exact h4 (by rw [← hc]; exact List.mem_map_of_mem _ hx)
          have hmap_eq : (before ++ [Node.mapping (mergeFlat le re)] ++ after).map (idValue k)
              = (before ++ [Node.mapping le] ++ after).map (idValue k) := by
            simp [idValue, hmid, hle]
          have hkeys' : ∀ x ∈ before ++ [Node.mapping (mergeFlat le re)] ++ after,
              hasIdKey k x = true := by
            intro x hx
            rcases List.mem_append.mp hx with hx | hx
            · rcases List.mem_append.mp hx with hx | hx
              · exact hKeys x (by simp [hx])
              · simp only [List.mem_singleton] at hx
                subst hx
                simp [hasIdKey, hmid]
            · exact hKeys x (by simp [hx])
          have hnodup' : ((before ++ [Node.mapping (mergeFlat le re)] ++ after).map
              (idValue k)).Nodup := by
            rw [hmap_eq]
            exact hNodup
          rw [ih _ hkeys' hnodup' hrest hpair.2]
          have E1 : (before ++ [Node.mapping (mergeFlat le re)] ++ after).map
                (aohUpdate k rest)
              = (before ++ [Node.mapping le] ++ after).map
                (aohUpdate k (Node.mapping re :: rest)) := by
            simp only [List.map_append, List.map_cons, List.map_nil]
            congr 1
            · congr 1
              · exact (List.map_congr_left fun x hx =>
                  aohUpdate_cons_ne rest x hidv (hbefore x hx)).symm
              · have h5 : aohUpdate k (Node.mapping re :: rest) (Node.mapping le)
                    = Node.mapping (mergeFlat le re) := by
                  simp [aohUpdate, hle, findRecord, hidv]
                have h6 : aohUpdate k rest (Node.mapping (mergeFlat le re))
                    = Node.mapping (mergeFlat le re) :=
                  aohUpdate_no_match rest hmid hrest_ne
                rw [h5, h6]
            · exact (List.map_congr_left fun x hx =>
                aohUpdate_cons_ne rest x hidv (hafter_ne x hx)).symm
          have E2 : aohNewRecords k (before ++ [Node.mapping (mergeFlat le re)] ++ after) rest
              = aohNewRecords k (before ++ [Node.mapping le] ++ after)
                  (Node.mapping re :: rest) := by
            simp only [aohNewRecords, List.filter_cons]
            have hany : ((before ++ [Node.mapping le] ++ after).any
                fun x => decide (idValue k x = idValue k (Node.mapping re))) = true :=
              List.any_eq_true.mpr
                ⟨Node.mapping le, by simp, by simp [idValue, hle, hidv]⟩
            rw [hany]
            simp only [Bool.not_true, Bool.false_eq_true, if_false]
            refine List.filter_congr ?_
            intro x hx
            have := any_idValue_eq_of_map_eq hmap_eq (idValue k x)
            rw [this]
          rw [E1, E2]
      | none =>
          dsimp only
          have hnomatch := findIdMatch_none k idv acc hfind
          have hrmid : idValue k (Node.mapping re) = some idv := by
            simp [idValue, hidv]
          have hid_notin : some idv ∉ acc.map (idValue k) := by
            intro hc
            obtain ⟨x, hx, hxe⟩ := List.mem_map.mp hc
            exact hnomatch x hx hxe
          have hkeys' : ∀ x ∈ acc ++ [Node.mapping re], hasIdKey k x = true := by
            intro x hx
            rcases List.mem_append.mp hx with h | h
            · exact hKeys x h
            · simp only [List.mem_singleton] at h
              subst h
              simp [hasIdKey, hidv]
          have hnodup' : ((acc ++ [Node.mapping re]).map (idValue k)).Nodup := by
            simp only [List.map_append, List.map_cons, List.map_nil]
            rw [List.nodup_append]
            refine ⟨hNodup, by simp, ?_⟩
            intro a ha hb
            simp only [idValue, hidv, List.mem_singleton] at hb
            subst hb
            exact hid_notin ha
          rw [ih _ hkeys' hnodup' hrest hpair.2]
          have E1 : (acc ++ [Node.mapping re]).map (aohUpdate k rest)
              = acc.map (aohUpdate k (Node.mapping re :: rest)) ++ [Node.mapping re] := by
            simp only [List.map_append, List.map_cons, List.map_nil]
            congr 1
            · exact (List.map_congr_left fun x hx =>
                aohUpdate_cons_ne rest x hidv (hnomatch x hx)).symm
            · rw [aohUpdate_no_match rest hidv hrest_ne]
          have E2 : aohNewRecords k (acc ++ [Node.mapping re]) rest
              = aohNewRecords k acc rest := by
            simp only [aohNewRecords]
            refine List.filter_congr ?_
            intro x hx
            have hane : (List.any [Node.mapping re]
                fun y => decide (idValue k y = idValue k x)) = false := by
              simp only [List.any_cons, List.any_nil, Bool.or_false, hrmid,
                decide_eq_false_iff_not]
              intro hc
              exact hrest_ne x hx hc.symm
            rw [List.any_append, hane]
            simp
          have E3 : aohNewRecords k acc (Node.mapping re :: rest)
              = Node.mapping re :: aohNewRecords k acc rest := by
            simp only [aohNewRecords, List.filter_cons]
            have hany : (acc.any
                fun x => decide (idValue k x = idValue k (Node.mapping re))) = false := by
              rw [List.any_eq_false]
              intro x hx
              simp only [hrmid, decide_eq_true_eq]
              exact hnomatch x hx
            rw [hany]
            simp
          rw [E1, E2, E3]
          simp

/-! ## Lemmas about unwrap_node_coords -/

theorem unwrap_list (items : List PyData) :
    unwrap_node_coords (.list items) = .list (items.map unwrap_node_coords) := by
  rw [unwrap_node_coords]
  congr 1
  exact List.attach_map_coe _ _

theorem unwrap_scalar (v : String) :
    unwrap_node_coords (.scalar v) = .scalar v := by
  rw [unwrap_node_coords]
  · exact fun _ _ _ h => PyData.noConfusion h
  · exact fun _ h => PyData.noConfusion h

theorem unwrap_dict (entries : List (String × PyData)) :
    unwrap_node_coords (.dict entries) = .dict entries := by
  rw [unwrap_node_coords]
  · exact fun _ _ _ h => PyData.noConfusion h
  · exact fun _ h => PyData.noConfusion h

theorem hasNodeCoords_list (xs : List PyData) :
    hasNodeCoords (.list xs) = xs.any hasNodeCoords := by
  induction xs with
  | nil => simp [hasNodeCoords]
  | cons x rest ih => simp [hasNodeCoords, ih]

theorem dictsClean_list (xs : List PyData) :
    dictsClean (.list xs) = xs.all dictsClean := by
  induction xs with
  | nil => simp [dictsClean]
  | cons x rest ih => simp [dictsClean, ih]

/-- On values whose dicts hold no NodeCoords, `unwrap_node_coords` strips
every wrapper: no NodeCoords remains anywhere in the result. -/
theorem unwrap_clean : ∀ (d : PyData), dictsClean d = true →
    hasNodeCoords (unwrap_node_coords d) = false
  | .scalar v, _ => by simp [unwrap_scalar, hasNodeCoords]
  | .nodeCoords n p r, h => by
      have hn : dictsClean n = true := by simpa [dictsClean] using h
      have := unwrap_clean n hn
      simpa [unwrap_node_coords] using this
  | .dict es, h => by
      rw [unwrap_dict]
      simpa [dictsClean] using h
  | .list items, h => by
      rw [unwrap_list, hasNodeCoords_list]
      refine List.any_eq_false.mpr ?_
      intro y hy
      obtain ⟨x, hx, hxy⟩ := List.mem_map.mp hy
      have hcx : dictsClean x = true := by
        rw [dictsClean_list] at h
        exact List.all_eq_true.mp h x hx
      have hdone := unwrap_clean x hcx
      rw [← hxy]
      simp [hdone]
decreasing_by
  · simp
    omega
  · have := List.sizeOf_lt_of_mem hx
    simp
    omega

/-- A DEEP Array-of-Hashes merge over flat RHS records carrying the
identity key always succeeds. -/
theorem mergeAoHDeep_flat_ok (cfg : MergerConfig) (k : String) :
    ∀ (r acc : List Node),
      (∀ e ∈ r, ∃ re, e = Node.mapping re ∧ (lookupKey k re).isSome ∧
        ∀ kv ∈ re, ∃ s, kv.2 = Node.scalar s) →
      ∃ res, mergeAoHDeep cfg k acc r = .ok res := by
  intro r
  induction r with
  | nil => intro acc _; exact ⟨acc, by simp [mergeAoHDeep]⟩
  | cons e rest ih =>
      intro acc hr
      obtain ⟨re, he, hkey, hflat⟩ := hr e (by simp)
      subst he
      obtain ⟨idv, hidv⟩ := Option.isSome_iff_exists.mp hkey
      have hrest : ∀ x ∈ rest, ∃ re', x = Node.mapping re' ∧
          (lookupKey k re').isSome ∧ ∀ kv ∈ re', ∃ s, kv.2 = Node.scalar s :=
        fun x hx => hr x (List.mem_cons_of_mem _ hx)
      simp only [mergeAoHDeep, hidv]
      cases hfind : findIdMatch k idv acc with
      | some bma =>
          obtain ⟨before, le, after⟩ := bma
          dsimp only
          rw [mergeMappingDeep_flat cfg re le hflat]
          exact ih _ hrest
      | none =>
          dsimp only
          exact ih _ hrest

/-- A DEEP Array-of-Hashes merge sends an accumulator split into an
arbitrary prefix and a mapping-only suffix to a result of the same shape:
the result is a prefix of the original prefix's length followed entirely
by mappings. -/
theorem mergeAoHDeep_split (cfg : MergerConfig) (k : String) :
    ∀ (r u a : List Node) (res : List Node),
      (∀ e ∈ a, isMappingNode e = true) →
      mergeAoHDeep cfg k (u ++ a) r = .ok res →
      ∃ u' a', res = u' ++ a' ∧ u'.length = u.length ∧
        ∀ e ∈ a', isMappingNode e = true := by
  intro r
  induction r with
  | nil =>
      intro u a res ha h
      simp only [mergeAoHDeep] at h
      injection h with h
      exact ⟨u, a, h.symm, rfl, ha⟩
  | cons e rest ih =>
      intro u a res ha h
      cases e with
      | scalar v => simp [mergeAoHDeep] at h
      | sequence xs => simp [mergeAoHDeep] at h
      | mapping re =>
          cases hidv : lookupKey k re with
          | none => simp [mergeAoHDeep, hidv] at h
          | some idv =>
              simp only [mergeAoHDeep, hidv] at h
              cases hfind : findIdMatch k idv (u ++ a) with
              | some bma =>
                  obtain ⟨before, le, after⟩ := bma
                  rw [hfind] at h
                  dsimp only at h
                  obtain ⟨hacc_eq, hle, hbefore⟩ :=
                    findIdMatch_some k idv (u ++ a) before le after hfind
                  cases hmerge : mergeMappingDeep cfg le re with
                  | error err => rw [hmerge] at h; cases h
                  | ok merged =>
                      rw [hmerge] at h
                      dsimp only at h
                      rw [List.append_assoc] at hacc_eq
                      rcases List.append_eq_append_iff.mp hacc_eq with ⟨w, hw1, hw2⟩ | ⟨w, hw1, hw2⟩
                      · -- the match sits inside the suffix `a`
                        have hmem_w : ∀ x ∈ w, isMappingNode x = true := by
                          intro x hx
                          exact ha x (by rw [hw2]; exact List.mem_append_left _ hx)
                        have hmem_after : ∀ x ∈ after, isMappingNode x = true := by
                          intro x hx
                          refine ha x ?_
                          rw [hw2]
                          exact List.mem_append_right _ (by simp [hx])
                        have hshape : before ++ [Node.mapping merged] ++ after
                            = u ++ (w ++ [Node.mapping merged] ++ after) := by
                          rw [hw1]
                          simp [List.append_assoc]
                        rw [hshape] at h
                        refine ih u (w ++ [Node.mapping merged] ++ after) res ?_ h
                        intro x hx
                        rcases List.mem_append.mp hx with hx | hx
                        · rcases List.mem_append.mp hx with hx | hx
                          · exact hmem_w x hx
                          · simp only [List.mem_singleton] at hx
                            subst hx
                            rfl
                        · exact hmem_after x hx
                      · -- the match sits inside the prefix `u`
                        cases w with
                        | nil =>
                            -- the match is the first element of `a`
                            simp only [List.append_nil] at hw1
                            have ha_eq : [Node.mapping le] ++ after = a := by
                              simpa using hw2
                            have hmem_after : ∀ x ∈ after, isMappingNode x = true := by
                              intro x hx
                              refine ha x ?_
                              rw [← ha_eq]
                              exact List.mem_append_right _ hx
                            have hshape : before ++ [Node.mapping merged] ++ after
                                = u ++ ([Node.mapping merged] ++ after) := by
                              rw [hw1]
                              simp [List.append_assoc]
                            rw [hshape] at h
                            refine ih u ([Node.mapping merged] ++ after) res ?_ h
                            intro x hx
                            rcases List.mem_append.mp hx with hx | hx
                            · simp only [List.mem_singleton] at hx
                              subst hx
                              rfl
                            · exact hmem_after x hx
                        | cons w0 w' =>
                            have hw0 : w0 = Node.mapping le ∧ after = w' ++ a := by
                              have h6 := hw2
                              simp only [List.cons_append, List.singleton_append] at h6
                              injection h6 with h1 h2
                              exact ⟨h1.symm, h2⟩
                            obtain ⟨hw0e, hafter⟩ := hw0
                            subst hw0e
                            have hshape : before ++ [Node.mapping merged] ++ after
                                = (before ++ [Node.mapping merged] ++ w') ++ a := by
                              rw [hafter]
                              simp [List.append_assoc]
                            rw [hshape] at h
                            obtain ⟨u', a', h1, h2, h3⟩ :=
                              ih (before ++ [Node.mapping merged] ++ w') a res ha h
                            refine ⟨u', a', h1, ?_, h3⟩
                            rw [h2, hw1]
                            simp
              | none =>
                  rw [hfind] at h
                  dsimp only at h
                  rw [List.append_assoc] at h
                  have hmem : ∀ x ∈ a ++ [Node.mapping re], isMappingNode x = true := by
                    intro x hx
                    rcases List.mem_append.mp hx with hx | hx
                    · exact ha x hx
                    · simp only [List.mem_singleton] at hx
                      subst hx
                      rfl
                  exact ih u (a ++ [Node.mapping re]) res hmem h

/-! ## The tree merge never reports an anchor conflict -/

mutual

/-- The recursive merge dispatch reports type, policy and identity-key
errors, never an anchor conflict; anchor conflicts come only from the
anchor phase. -/
theorem mergeValues_no_anchor (cfg : MergerConfig) :
    ∀ (l r : Node) (nm : String),
      mergeValues cfg l r ≠ Except.error (.anchorConflict nm)
  | l, .scalar v, nm => by
      simp [mergeValues_scalar]
  | .mapping le, .mapping re, nm => by
      intro hc
      simp only [mergeValues] at hc
      cases hp : cfg.hashPolicy <;> rw [hp] at hc
      · simp at hc
      · simp at hc
      · simp at hc
      · cases hm : mergeMappingDeep cfg le re with
        | ok m => rw [hm] at hc; simp at hc
        | error e =>
            rw [hm] at hc
            simp only [Except.error.injEq] at hc
            exact mergeMappingDeep_no_anchor cfg le re nm (by rw [hm, hc])
  | .scalar v, .mapping re, nm => by simp [mergeValues]
  | .sequence li, .mapping re, nm => by simp [mergeValues]
  | .scalar v, .sequence ri, nm => by
      intro hc
      simp only [mergeValues] at hc
      cases h : isAoH ri <;> simp [h] at hc
  | .mapping le, .sequence ri, nm => by
      intro hc
      simp only [mergeValues] at hc
      cases h : isAoH ri <;> simp [h] at hc
  | .sequence li, .sequence ri, nm => by
      intro hc
      simp only [mergeValues] at hc
      by_cases haoh : isAoH ri = true
      · rw [if_pos haoh] at hc
        cases hp : cfg.aohPolicy <;> rw [hp] at hc
        · simp at hc
        · simp at hc
        · simp at hc
        · simp at hc
        · simp at hc
        · dsimp only at hc
          by_cases hall : ri.all (hasIdKey (identityKey cfg li ri)) = true
          · rw [if_pos hall] at hc
            cases hma : mergeAoHDeep cfg (identityKey cfg li ri) li ri with
            | ok res => rw [hma] at hc; simp at hc
            | error e =>
                rw [hma] at hc
                simp only [Except.error.injEq] at hc
                exact mergeAoHDeep_no_anchor cfg (identityKey cfg li ri) li ri nm
                  (by rw [hma, hc])
          · rw [if_neg hall] at hc
            simp at hc
      · rw [if_neg haoh] at hc
        cases ha : cfg.arrayPolicy <;> simp [mergeArray, ha] at hc

/-- The DEEP mapping merge never reports an anchor conflict. -/
theorem mergeMappingDeep_no_anchor (cfg : MergerConfig) :
    ∀ (acc r : List (String × Node)) (nm : String),
      mergeMappingDeep cfg acc r ≠ Except.error (.anchorConflict nm)
  | acc, [], nm => by simp [mergeMappingDeep]
  | acc, (k, v) :: rest, nm => by
      intro hc
      simp only [mergeMappingDeep] at hc
      cases hl : lookupKey k acc with
      | none =>
          rw [hl] at hc
          exact mergeMappingDeep_no_anchor cfg (acc ++ [(k, v)]) rest nm hc
      | some lv =>
          rw [hl] at hc
          dsimp only at hc
          cases hm : mergeValues cfg lv v with
          | ok mv =>
              rw [hm] at hc
              exact mergeMappingDeep_no_anchor cfg (setKey k mv acc) rest nm hc
          | error e =>
              rw [hm] at hc
              simp only [Except.error.injEq] at hc
              exact mergeValues_no_anchor cfg lv v nm (by rw [hm, hc])

/-- The DEEP Array-of-Hashes merge never reports an anchor conflict. -/
theorem mergeAoHDeep_no_anchor (cfg : MergerConfig) :
    ∀ (k : String) (acc r : List Node) (nm : String),
      mergeAoHDeep cfg k acc r ≠ Except.error (.anchorConflict nm)
  | k, acc, [], nm => by simp [mergeAoHDeep]
  | k, acc, .scalar v :: rest, nm => by simp [mergeAoHDeep]
  | k, acc, .sequence xs :: rest, nm => by simp [mergeAoHDeep]
  | k, acc, .mapping re :: rest, nm => by
      intro hc
      simp only [mergeAoHDeep] at hc
      cases hid : lookupKey k re with
      | none => rw [hid] at hc; simp at hc
      | some idv =>
          rw [hid] at hc
          dsimp only at hc
          cases hfind : findIdMatch k idv acc with
          | none =>
              rw [hfind] at hc
              dsimp only at hc
              exact mergeAoHDeep_no_anchor cfg k (acc ++ [.mapping re]) rest nm hc
          | some bma =>
              obtain ⟨before, le, after⟩ := bma
              rw [hfind] at hc
              dsimp only at hc
              cases hm : mergeMappingDeep cfg le re with
              | ok merged =>
                  rw [hm] at hc
                  dsimp only at hc
                  exact mergeAoHDeep_no_anchor cfg k
                    (before ++ [.mapping merged] ++ after) rest nm hc
              | error err =>
                  rw [hm] at hc
                  simp only [Except.error.injEq] at hc
                  exact mergeMappingDeep_no_anchor cfg le re nm (by rw [hm, hc])

end

/-! ## Characterization of anchor conflict detection -/

/-- Over a registry with unique anchor names, the anchor scan finds no
conflict exactly when every anchor name bound on both sides is bound to
the same value. -/
theorem firstAnchorConflict_none_iff :
    ∀ (rhsA : List (String × Node)), (keysOf rhsA).Nodup →
    ∀ (lhsA : List (String × Node)),
      (firstAnchorConflict lhsA rhsA = none ↔
        ∀ n lv rv, lookupKey n lhsA = some lv → lookupKey n rhsA = some rv →
          lv = rv) := by
  intro rhsA
  induction rhsA with
  | nil =>
      intro _ lhsA
      simp only [firstAnchorConflict, true_iff]
      intro n lv rv _ hr
      simp [lookupKey] at hr
  | cons nv rest ih =>
      obtain ⟨n0, v0⟩ := nv
      intro hnd lhsA
      have hins : n0 ∉ keysOf rest ∧ (keysOf rest).Nodup := by
        simpa [keysOf] using hnd
      have hrest_none : lookupKey n0 rest = none := lookupKey_none_iff.mpr hins.1
      cases hl : lookupKey n0 lhsA with
      | some lv =>
          by_cases hv : lv = v0
          · simp only [firstAnchorConflict, hl, if_pos hv]
            rw [ih hins.2 lhsA]
            constructor
            · intro hall n lv' rv hln hrn
              by_cases hn : n0 = n
              · subst hn
                simp only [lookupKey, if_pos rfl] at hrn
                injection hrn with hrn
                rw [hln] at hl
                injection hl with hl
                rw [hl, ← hrn]
                exact hv
              · simp only [lookupKey, hn, if_false] at hrn
                exact hall n lv' rv hln hrn
            · intro hall n lv' rv hln hrn
              refine hall n lv' rv hln ?_
              have hn : ¬ n0 = n := by
                intro hn
                subst hn
                rw [hrn] at hrest_none
                cases hrest_none
              simp only [lookupKey, hn, if_false]
              exact hrn
          · simp only [firstAnchorConflict, hl, hv, if_false]
            constructor
            · intro hc; cases hc
            · intro hall
              exfalso
              exact hv (hall n0 lv v0 hl (by simp [lookupKey]))
      | none =>
          simp only [firstAnchorConflict, hl]
          rw [ih hins.2 lhsA]
          constructor
          · intro hall n lv' rv hln hrn
            by_cases hn : n0 = n
            · subst hn
              rw [hln] at hl
              cases hl
            · simp only [lookupKey, hn, if_false] at hrn
              exact hall n lv' rv hln hrn
          · intro hall n lv' rv hln hrn
            refine hall n lv' rv hln ?_
            have hn : ¬ n0 = n := by
              intro hn
              subst hn
              rw [hln] at hl
              cases hl
            simp only [lookupKey, hn, if_false]
            exact hrn

/-- When the scan reports a conflict it names an anchor genuinely bound to
two different values. -/
theorem firstAnchorConflict_some :
    ∀ (rhsA : List (String × Node)), (keysOf rhsA).Nodup →
    ∀ (lhsA : List (String × Node)) (n : String),
      firstAnchorConflict lhsA rhsA = some n →
      ∃ lv rv, lookupKey n lhsA = some lv ∧ lookupKey n rhsA = some rv ∧
        lv ≠ rv := by
  intro rhsA
  induction rhsA with
  | nil => intro _ lhsA n h; simp [firstAnchorConflict] at h
  | cons nv rest ih =>
      obtain ⟨n0, v0⟩ := nv
      intro hnd lhsA n h
      have hins : n0 ∉ keysOf rest ∧ (keysOf rest).Nodup := by
        simpa [keysOf] using hnd
      cases hl : lookupKey n0 lhsA with
      | some lv =>
          by_cases hv : lv = v0
          · simp only [firstAnchorConflict, hl, if_pos hv] at h
            obtain ⟨lv', rv, h1, h2, h3⟩ := ih hins.2 lhsA n h
            have hn : ¬ n0 = n := by
              intro hn
              subst hn
              rw [lookupKey_none_iff.mpr hins.1] at h2
              cases h2
            refine ⟨lv', rv, h1, ?_, h3⟩
            simp only [lookupKey, hn, if_false]
            exact h2
          · simp only [firstAnchorConflict, hl, hv, if_false] at h
            injection h with h
            subst h
            exact ⟨lv, v0, hl, by simp [lookupKey], hv⟩
      | none =>
          simp only [firstAnchorConflict, hl] at h
          obtain ⟨lv', rv, h1, h2, h3⟩ := ih hins.2 lhsA n h
          have hn : ¬ n0 = n := by
            intro hn
            subst hn
            rw [h1] at hl
            cases hl
          refine ⟨lv', rv, h1, ?_, h3⟩
          simp only [lookupKey, hn, if_false]
          exact h2

/-! ## Fresh anchor names under the RENAME policy -/

theorem digitChar_inj :
    ∀ d1 < 10, ∀ d2 < 10, Char.ofNat (48 + d1) = Char.ofNat (48 + d2) → d1 = d2 := by
  decide

theorem mapDigitChar_inj :
    ∀ (l1 l2 : List Nat), (∀ d ∈ l1, d < 10) → (∀ d ∈ l2, d < 10) →
      l1.map (fun d => Char.ofNat (48 + d)) = l2.map (fun d => Char.ofNat (48 + d)) →
      l1 = l2
  | [], [], _, _, _ => rfl
  | [], _ :: _, _, _, h => by simp at h
  | _ :: _, [], _, _, h => by simp at h
  | d1 :: r1, d2 :: r2, hb1, hb2, h => by
      simp only [List.map_cons, List.cons.injEq] at h
      have hd := digitChar_inj d1 (hb1 d1 (by simp)) d2 (hb2 d2 (by simp)) h.1
      have hr := mapDigitChar_inj r1 r2
        (fun d hd => hb1 d (by simp [hd])) (fun d hd => hb2 d (by simp [hd])) h.2
      rw [hd, hr]

theorem natSuffix_inj : ∀ (i j : Nat), natSuffix i = natSuffix j → i = j := by
  intro i j h
  have h2 := congrArg String.data h
  simp only [natSuffix] at h2
  have h3 := mapDigitChar_inj _ _
    (fun d hd => Nat.digits_lt_base (by norm_num) (List.mem_reverse.mp hd))
    (fun d hd => Nat.digits_lt_base (by norm_num) (List.mem_reverse.mp hd)) h2
  have h4 := List.reverse_inj.mp h3
  exact Nat.digits_inj_iff.mp h4

theorem candidateName_inj (base : String) :
    ∀ (i j : Nat), candidateName base i = candidateName base j → i = j := by
  intro i j h
  have h2 := congrArg String.data h
  simp only [candidateName, String.data_append] at h2
  have h3 := List.append_cancel_left h2
  exact natSuffix_inj i j (String.ext h3)

theorem findFreeSuffix_none_all (used : List String) (base : String) :
    ∀ (fuel i : Nat), findFreeSuffix used base fuel i = none →
      ∀ m, i ≤ m → m < i + fuel → candidateName base m ∈ used
  | 0, i, _, m, h1, h2 => by omega
  | fuel + 1, i, h, m, h1, h2 => by
      by_cases hc : candidateName base i ∈ used
      · simp only [findFreeSuffix, hc, if_pos] at h
        by_cases hm : m = i
        · subst hm; exact hc
        · exact findFreeSuffix_none_all used base fuel (i + 1) h m (by omega) (by omega)
      · simp [findFreeSuffix, hc] at h

theorem findFreeSuffix_some_spec (used : List String) (base : String) :
    ∀ (fuel i j : Nat), findFreeSuffix used base fuel i = some j →
      candidateName base j ∉ used ∧ i ≤ j ∧
        ∀ m, i ≤ m → m < j → candidateName base m ∈ used
  | 0, i, j, h => by simp [findFreeSuffix] at h
  | fuel + 1, i, j, h => by
      by_cases hc : candidateName base i ∈ used
      · simp only [findFreeSuffix, hc, if_pos] at h
        obtain ⟨h1, h2, h3⟩ := findFreeSuffix_some_spec used base fuel (i + 1) j h
        refine ⟨h1, by omega, ?_⟩
        intro m hm1 hm2
        by_cases hm : m = i
        · subst hm; exact hc
        · exact h3 m (by omega) hm2
      · simp only [findFreeSuffix, hc, if_false] at h
        injection h with h
        subst h
        exact ⟨hc, le_rfl, fun m hm1 hm2 => by omega⟩

theorem no_all_candidates_used (base : String) :
    ∀ (fuel : Nat) (used' : List String) (i : Nat), used'.length < fuel →
      (∀ m, i ≤ m → m < i + fuel → candidateName base m ∈ used') → False
  | 0, used', i, hlt, _ => by omega
  | fuel + 1, used', i, hlt, hall => by
      have hc : candidateName base i ∈ used' := hall i le_rfl (by omega)
      have hlen := List.length_erase_of_mem hc
      have hpos : 0 < used'.length := List.length_pos_of_mem hc
      refine no_all_candidates_used base fuel (used'.erase (candidateName base i))
        (i + 1) (by omega) ?_
      intro m hm1 hm2
      have hmem : candidateName base m ∈ used' := hall m (by omega) (by omega)
      have hne : candidateName base m ≠ candidateName base i := by
        intro hc2
        have := candidateName_inj base m i hc2
        omega
      exact (List.mem_erase_of_ne hne).mpr hmem

/-- The RENAME fresh-name search always succeeds: the chosen name is a
numeric-suffix candidate that is free of the used names, and every
smaller-suffix candidate is taken (the suffix is incremented until
free). -/
theorem freshAnchorName_spec (used : List String) (base : String) :
    ∃ j, freshAnchorName used base = candidateName base j ∧
      candidateName base j ∉ used ∧ 1 ≤ j ∧
      ∀ m, 1 ≤ m → m < j → candidateName base m ∈ used := by
  cases hfind : findFreeSuffix used base (used.length + 1) 1 with
  | none =>
      exfalso
      refine no_all_candidates_used base (used.length + 1) used 1 (by omega) ?_
      exact findFreeSuffix_none_all used base (used.length + 1) 1 hfind
  | some j =>
      obtain ⟨h1, h2, h3⟩ := findFreeSuffix_some_spec used base (used.length + 1) 1 j hfind
      exact ⟨j, by simp [freshAnchorName, hfind], h1, h2, h3⟩

/-! ## Repointing of anchors and aliases under a rename -/

theorem renameAnchor_mapping (old new : String) (a : Option String)
    (es : List (String × ANode)) :
    renameAnchor old new (.mapping a es)
      = .mapping (if a = some old then some new else a)
          (es.map fun kv => (kv.1, renameAnchor old new kv.2)) := by
  rw [renameAnchor]
  congr 1
  exact List.attach_map_coe es fun kv => (kv.1, renameAnchor old new kv.2)

theorem renameAnchor_sequence (old new : String) (a : Option String)
    (xs : List ANode) :
    renameAnchor old new (.sequence a xs)
      = .sequence (if a = some old then some new else a)
          (xs.map (renameAnchor old new)) := by
  rw [renameAnchor]
  congr 1
  exact List.attach_map_coe xs (renameAnchor old new)

theorem anchorDecls_mapping (a : Option String) (es : List (String × ANode)) :
    anchorDecls (.mapping a es)
      = a.toList ++ (es.map fun kv => anchorDecls kv.2).flatten := by
  rw [anchorDecls]
  congr 2
  exact List.attach_map_coe es fun kv => anchorDecls kv.2

theorem anchorDecls_sequence (a : Option String) (xs : List ANode) :
    anchorDecls (.sequence a xs)
      = a.toList ++ (xs.map anchorDecls).flatten := by
  rw [anchorDecls]
  congr 2
  exact List.attach_map_coe xs anchorDecls

theorem aliasRefs_mapping (a : Option String) (es : List (String × ANode)) :
    aliasRefs (.mapping a es) = (es.map fun kv => aliasRefs kv.2).flatten := by
  rw [aliasRefs]
  congr 1
  exact List.attach_map_coe es fun kv => aliasRefs kv.2

theorem aliasRefs_sequence (a : Option String) (xs : List ANode) :
    aliasRefs (.sequence a xs) = (xs.map aliasRefs).flatten := by
  rw [aliasRefs]
  congr 1
  exact List.attach_map_coe xs aliasRefs

theorem toList_rename (old new : String) (a : Option String) :
    (if a = some old then some new else a).toList
      = a.toList.map fun n => if n = old then new else n := by
  cases a with
  | none => simp
  | some x =>
      by_cases hx : x = old
      · subst hx; simp
      · have : ¬ (some x = some old) := by simp [hx]
        simp [this, hx]

/-- Renaming an anchor substitutes the new name for the old one in the
document's anchor declaration list, position by position. -/
theorem anchorDecls_rename (old new : String) : ∀ (t : ANode),
    anchorDecls (renameAnchor old new t)
      = (anchorDecls t).map fun n => if n = old then new else n
  | .scalar a v => by
      simp only [renameAnchor, anchorDecls]
      exact toList_rename old new a
  | .aliasRef n => by simp [renameAnchor, anchorDecls]
  | .mapping a es => by
      rw [renameAnchor_mapping, anchorDecls_mapping, anchorDecls_mapping,
        List.map_append, toList_rename, List.map_flatten, List.map_map,
        List.map_map]
      congr 1
      congr 1
      refine List.map_congr_left ?_
      intro kv hkv
      exact anchorDecls_rename old new kv.2
  | .sequence a xs => by
      rw [renameAnchor_sequence, anchorDecls_sequence, anchorDecls_sequence,
        List.map_append, toList_rename, List.map_flatten, List.map_map,
        List.map_map]
      congr 1
      congr 1
      refine List.map_congr_left ?_
      intro x hx
      exact anchorDecls_rename old new x
decreasing_by
  · obtain ⟨k, v⟩ := kv
    have := List.sizeOf_lt_of_mem hkv
    simp at this ⊢
    omega
  · have := List.sizeOf_lt_of_mem hx
    simp
    omega

/-- Renaming an anchor repoints the alias references: the document's alias
reference list has the new name substituted for the old one, position by
position. -/
theorem aliasRefs_rename (old new : String) : ∀ (t : ANode),
    aliasRefs (renameAnchor old new t)
      = (aliasRefs t).map fun n => if n = old then new else n
  | .scalar a v => by simp [renameAnchor, aliasRefs]
  | .aliasRef n => by simp [renameAnchor, aliasRefs]
  | .mapping a es => by
      rw [renameAnchor_mapping, aliasRefs_mapping, aliasRefs_mapping,
        List.map_flatten, List.map_map, List.map_map]
      congr 1
      refine List.map_congr_left ?_
      intro kv hkv
      exact aliasRefs_rename old new kv.2
  | .sequence a xs => by
      rw [renameAnchor_sequence, aliasRefs_sequence, aliasRefs_sequence,
        List.map_flatten, List.map_map, List.map_map]
      congr 1
      refine List.map_congr_left ?_
      intro x hx
      exact aliasRefs_rename old new x
decreasing_by
  · obtain ⟨k, v⟩ := kv
    have := List.sizeOf_lt_of_mem hkv
    simp at this ⊢
    omega
  · have := List.sizeOf_lt_of_mem hx
    simp
    omega

/-! ## Remaining helper lemmas -/

/-- Under the default configuration both sequence policies (array ALL and
aoh ALL) concatenate. -/
theorem mergeValues_seq_default (la ra : List Node) :
    mergeValues defaultConfig (.sequence la) (.sequence ra)
      = .ok (.sequence (la ++ ra)) := by
  simp only [mergeValues]
  by_cases haoh : isAoH ra = true
  · rw [if_pos haoh]
    rfl
  · rw [if_neg haoh]
    rfl

theorem not_mem_self_sequence (r : List Node) : Node.sequence r ∉ r := by
  intro hmem
  have h1 := List.sizeOf_lt_of_mem hmem
  simp only [Node.sequence.sizeOf_spec] at h1
  omega

/-- The merge-point dispatch never reports an anchor conflict either. -/
theorem merge_with_no_anchor (cfg : MergerConfig) :
    ∀ (l r : Node) (nm : String),
      merge_with cfg l r ≠ Except.error (.anchorConflict nm) := by
  intro l r nm
  cases r with
  | scalar v => cases l <;> simp [merge_with]
  | mapping re =>
      cases l with
      | sequence items => simp [merge_with]
      | mapping le =>
          simp only [merge_with]
          exact mergeValues_no_anchor cfg _ _ nm
      | scalar v =>
          simp only [merge_with]
          exact mergeValues_no_anchor cfg _ _ nm
  | sequence ri =>
      cases l with
      | sequence items =>
          simp only [merge_with]
          exact mergeValues_no_anchor cfg _ _ nm
      | mapping le =>
          simp only [merge_with]
          exact mergeValues_no_anchor cfg _ _ nm
      | scalar v =>
          simp only [merge_with]
          exact mergeValues_no_anchor cfg _ _ nm

/-! ## The claims -/

/-- C1: merging two mapping documents with merge_with under the default
(DEEP) hash policy keeps every key unique to the LHS, adds every key
unique to the RHS, merges the values of shared keys recursively through
the node-type dispatch (shared scalar-valued keys take the RHS value,
shared sequence-valued keys follow the array rules), and the key order is
the LHS keys followed by the new RHS keys. -/
theorem merge_with_default_deep_hash (l r : List (String × Node)) (res : Node)
    (hr : (keysOf r).Nodup)
    (h : merge_with defaultConfig (.mapping l) (.mapping r) = .ok res) :
    ∃ m, res = Node.mapping m ∧
      (∀ q, lookupKey q r = none → lookupKey q m = lookupKey q l) ∧
      (∀ q v, lookupKey q r = some v → lookupKey q l = none →
        lookupKey q m = some v) ∧
      (∀ q vl vr, lookupKey q l = some vl → lookupKey q r = some vr →
        ∃ mv, mergeValues defaultConfig vl vr = .ok mv ∧ lookupKey q m = some mv) ∧
      (∀ q sl sr, lookupKey q l = some (.scalar sl) →
        lookupKey q r = some (.scalar sr) → lookupKey q m = some (.scalar sr)) ∧
      (∀ q la ra, lookupKey q l = some (.sequence la) →
        lookupKey q r = some (.sequence ra) →
        lookupKey q m = some (.sequence (la ++ ra))) ∧
      keysOf m = keysOf l ++ (keysOf r).filter fun q => (lookupKey q l).isNone := by
  simp only [merge_with, mergeValues] at h
  cases hm : mergeMappingDeep defaultConfig l r with
  | error e => rw [hm] at h; cases h
  | ok m =>
      rw [hm] at h
      dsimp only at h
      injection h with h
      obtain ⟨h1, h2, h3, h4⟩ := mergeMappingDeep_ok defaultConfig r hr l m hm
      refine ⟨m, h.symm, h1, h2, fun q vl vr hql hqr => h3 q vr vl hqr hql, ?_, ?_, h4⟩
      · intro q sl sr hql hqr
        obtain ⟨mv, hmv, hqm⟩ := h3 q (.scalar sr) (.scalar sl) hqr hql
        rw [mergeValues_scalar] at hmv
        injection hmv with hmv
        rw [hqm, ← hmv]
      · intro q la ra hql hqr
        obtain ⟨mv, hmv, hqm⟩ := h3 q (.sequence ra) (.sequence la) hqr hql
        rw [mergeValues_seq_default] at hmv
        injection hmv with hmv
        rw [hqm, ← hmv]

/-- C3: merging two plain sequences with merge_with under the default (ALL)
array policy concatenates the LHS elements and then the RHS elements,
preserving duplicates and order, so the merged length is the sum of the
input lengths. -/
theorem merge_with_default_array_concat (l r : List Node) :
    merge_with defaultConfig (.sequence l) (.sequence r)
      = .ok (.sequence (l ++ r)) ∧
    (l ++ r).length = l.length + r.length := by
  constructor
  · simp only [merge_with]
    exact mergeValues_seq_default l r
  · simp

/-- C8: a scalar RHS merged at a Sequence merge point is appended as a new
element; a scalar RHS merged at a Mapping merge point is refused with a
MergeException whose message contains "Impossible to add Scalar value,". -/
theorem merge_with_scalar_dispatch :
    (∀ (cfg : MergerConfig) (items : List Node) (v : String),
      merge_with cfg (.sequence items) (.scalar v)
        = .ok (.sequence (items ++ [.scalar v]))) ∧
    ∀ (cfg : MergerConfig) (le : List (String × Node)) (v : String),
      merge_with cfg (.mapping le) (.scalar v) = .error (.scalarIntoHash v) ∧
      ∃ post, (MergeError.message (.scalarIntoHash v)).data
        = "Impossible to add Scalar value,".data ++ post := by
  constructor
  · intro cfg items v
    rfl
  · intro cfg le v
    refine ⟨rfl, ((" " ++ v ++ ", to a Hash without a specified key.").data), ?_⟩
    have hsplit : ("Impossible to add Scalar value, " : String)
        = "Impossible to add Scalar value," ++ " " := by decide
    show ("Impossible to add Scalar value, " ++ v
        ++ ", to a Hash without a specified key.").data = _
    rw [hsplit]
    simp [String.data_append, List.append_assoc]

/-- C7: a Mapping RHS merged at a Sequence merge point is appended as one
opaque new element rather than failing; this is the only such case: in the
recursive dispatch a Mapping RHS against a Sequence LHS is refused, and a
Sequence RHS merged at a Sequence merge point never enters the result as a
single opaque element. -/
theorem merge_with_mapping_into_sequence :
    (∀ (cfg : MergerConfig) (items : List Node) (re : List (String × Node)),
      merge_with cfg (.sequence items) (.mapping re)
        = .ok (.sequence (items ++ [.mapping re]))) ∧
    (∀ (cfg : MergerConfig) (litems : List Node) (re : List (String × Node)),
      mergeValues cfg (.sequence litems) (.mapping re)
        = .error .hashIntoNonHash) ∧
    ∀ (cfg : MergerConfig) (l r : List Node),
      merge_with cfg (.sequence l) (.sequence r)
        ≠ .ok (.sequence (l ++ [.sequence r])) := by
  refine ⟨fun cfg items re => rfl, fun cfg litems re => by simp [mergeValues], ?_⟩
  intro cfg l r hc
  simp only [merge_with, mergeValues] at hc
  have hmem : Node.sequence r ∉ r := not_mem_self_sequence r
  by_cases haoh : isAoH r = true
  · rw [if_pos haoh] at hc
    cases hp : cfg.aohPolicy <;> rw [hp] at hc
    · cases hc
    · -- LEFT: l = l ++ [sequence r] is impossible by length
      simp only [Except.ok.injEq, Node.sequence.injEq] at hc
      have := congrArg List.length hc
      simp at this
    · -- RIGHT: r = l ++ [sequence r] would put the sequence inside itself
      simp only [Except.ok.injEq, Node.sequence.injEq] at hc
      have hin : Node.sequence r ∈ l ++ [Node.sequence r] :=
        List.mem_append_right _ (by simp)
      rw [← hc] at hin
      exact hmem hin
    · -- ALL: concatenation would need r = [sequence r]
      simp only [Except.ok.injEq, Node.sequence.injEq] at hc
      have hr : r = [Node.sequence r] := List.append_cancel_left hc
      have hin : Node.sequence r ∈ [Node.sequence r] := by simp
      rw [← hr] at hin
      exact hmem hin
    · -- UNIQUE
      simp only [Except.ok.injEq, Node.sequence.injEq] at hc
      obtain ⟨r', hu, hsub, _, _, _⟩ := uniqueInto_spec r l
      rw [hu] at hc
      have hr' : r' = [Node.sequence r] := List.append_cancel_left hc
      refine hmem (hsub.subset ?_)
      rw [hr']
      simp
    · -- DEEP
      dsimp only at hc
      by_cases hall : r.all (hasIdKey (identityKey cfg l r)) = true
      · rw [if_pos hall] at hc
        cases hd : mergeAoHDeep cfg (identityKey cfg l r) l r with
        | error e => rw [hd] at hc; cases hc
        | ok res =>
            rw [hd] at hc
            simp only [Except.ok.injEq, Node.sequence.injEq] at hc
            subst hc
            have hd' : mergeAoHDeep cfg (identityKey cfg l r) (l ++ ([] : List Node)) r
                = .ok (l ++ [Node.sequence r]) := by simpa using hd
            obtain ⟨u', a', h1, h2, h3⟩ :=
              mergeAoHDeep_split cfg (identityKey cfg l r) r l [] _ (by simp) hd'
            have hlen : a'.length = 1 := by
              have := congrArg List.length h1
              simp [h2] at this
              omega
            obtain ⟨h4, h5⟩ := List.append_inj h1 h2.symm
            have : isMappingNode (Node.sequence r) = true := by
              refine h3 (Node.sequence r) ?_
              rw [← h5]
              simp
            cases this
      · rw [if_neg hall] at hc
        cases hc
  · rw [if_neg haoh] at hc
    simp only [mergeArray] at hc
    cases hp : cfg.arrayPolicy <;> rw [hp] at hc <;> dsimp only at hc
    · cases hc
    · simp only [Except.ok.injEq, Node.sequence.injEq] at hc
      have := congrArg List.length hc
      simp at this
    · simp only [Except.ok.injEq, Node.sequence.injEq] at hc
      have hin : Node.sequence r ∈ l ++ [Node.sequence r] :=
        List.mem_append_right _ (by simp)
      rw [← hc] at hin
      exact hmem hin
    · simp only [Except.ok.injEq, Node.sequence.injEq] at hc
      have hr : r = [Node.sequence r] := List.append_cancel_left hc
      have hin : Node.sequence r ∈ [Node.sequence r] := by simp
      rw [← hr] at hin
      exact hmem hin
    · simp only [Except.ok.injEq, Node.sequence.injEq] at hc
      obtain ⟨r', hu, hsub, _, _, _⟩ := uniqueInto_spec r l
      rw [hu] at hc
      have hr' : r' = [Node.sequence r] := List.append_cancel_left hc
      refine hmem (hsub.subset ?_)
      rw [hr']
      simp

/-- A non-empty list of mappings is an Array-of-Hashes. -/
theorem isAoH_of (r : List Node) (hne : r ≠ [])
    (hmaps : ∀ e ∈ r, isMappingNode e = true) : isAoH r = true := by
  cases r with
  | nil => exact absurd rfl hne
  | cons e rest =>
      simp only [isAoH, List.isEmpty_cons, Bool.not_false, Bool.true_and,
        List.all_eq_true]
      intro x hx
      exact hmaps x hx

/-- C2: merging two well-formed arrays-of-hashes (flat records with unique
keys and unique identity values) with merge_with under the AoH DEEP policy
deep-merges matched records in place — so LHS elements keep their original
positions, matched ones updated field-wise — and appends the unmatched RHS
records at the end in their original order.  Field-wise means: the RHS
value wins for every field the RHS record carries, and fields only the LHS
record carries are preserved. -/
theorem merge_with_deep_aoh (cfg : MergerConfig)
    (hpol : cfg.aohPolicy = AoHMergeOpts.deep)
    (l r : List Node) (k : String) (hk : identityKey cfg l r = k)
    (hne : r ≠ [])
    (hL : ∀ e ∈ l, hasIdKey k e = true)
    (hLn : (l.map (idValue k)).Nodup)
    (hR : ∀ e ∈ r, ∃ re, e = Node.mapping re ∧ (lookupKey k re).isSome ∧
      (∀ kv ∈ re, ∃ s, kv.2 = Node.scalar s) ∧ (keysOf re).Nodup)
    (hRn : (r.map (idValue k)).Nodup) :
    merge_with cfg (.sequence l) (.sequence r)
      = .ok (.sequence (l.map (aohUpdate k r) ++ aohNewRecords k l r)) ∧
    (∀ (le re : List (String × Node)) (q : String) (v : Node),
      (keysOf re).Nodup → lookupKey q re = some v →
      lookupKey q (mergeFlat le re) = some v) ∧
    ∀ (le re : List (String × Node)) (q : String),
      (keysOf re).Nodup → lookupKey q re = none →
      lookupKey q (mergeFlat le re) = lookupKey q le := by
  refine ⟨?_, ?_, ?_⟩
  · have haoh : isAoH r = true := by
      refine isAoH_of r hne ?_
      intro e he
      obtain ⟨re, he2, _, _, _⟩ := hR e he
      subst he2
      rfl
    have hall : r.all (hasIdKey k) = true := by
      rw [List.all_eq_true]
      intro e he
      obtain ⟨re, he2, hkey, _, _⟩ := hR e he
      subst he2
      simpa [hasIdKey] using hkey
    simp only [merge_with, mergeValues, if_pos haoh, hpol]
    rw [hk, if_pos hall,
      mergeAoHDeep_spec cfg k r l hL hLn hR hRn]
  · intro le re q v hnd hq
    rw [lookupKey_mergeFlat q re le hnd, hq]
  · intro le re q hnd hq
    rw [lookupKey_mergeFlat q re le hnd, hq]

/-- C4: merging two plain sequences with merge_with under the UNIQUE array
policy yields the LHS followed by a duplicate-free selection of the RHS
elements — a sublist of the RHS in RHS order, containing no element
value-equal to an LHS element nor a duplicate, yet covering every RHS
element. -/
theorem merge_with_unique_array (cfg : MergerConfig)
    (hpol : cfg.arrayPolicy = ArrayMergeOpts.unique)
    (l r : List Node) (hplain : isAoH r = false) :
    ∃ r', merge_with cfg (.sequence l) (.sequence r)
        = .ok (.sequence (l ++ r')) ∧
      r'.Sublist r ∧ (∀ e ∈ r', e ∉ l) ∧ r'.Nodup ∧
      ∀ e ∈ r, e ∈ l ∨ e ∈ r' := by
  obtain ⟨r', h1, h2, h3, h4, h5⟩ := uniqueInto_spec r l
  refine ⟨r', ?_, h2, h3, h4, h5⟩
  simp only [merge_with, mergeValues, hplain, Bool.false_eq_true, if_false,
    mergeArray, hpol]
  rw [h1]

/-- C6: in an AoH DEEP merge the identity key is the configured
identity-key declaration when one applies, defaulting to the first
attribute name of the first record; when some RHS element lacks that key
merge_with fails with a MergeException whose message contains "Mandatory
identity key, <key>, not present", and when every (flat) RHS record
carries the key no identity-key error is raised and the merge succeeds. -/
theorem merge_with_aoh_missing_key (cfg : MergerConfig)
    (hpol : cfg.aohPolicy = AoHMergeOpts.deep)
    (l r : List Node) (hne : r ≠ [])
    (hmaps : ∀ e ∈ r, isMappingNode e = true) :
    (∀ kk, cfg.aohIdentityKey = some kk → identityKey cfg l r = kk) ∧
    (cfg.aohIdentityKey = none →
      ∀ kv rest, firstRecordEntries l = some (kv :: rest) →
        identityKey cfg l r = kv.1) ∧
    ((∃ e ∈ r, hasIdKey (identityKey cfg l r) e = false) →
      merge_with cfg (.sequence l) (.sequence r)
        = .error (.mandatoryKey (identityKey cfg l r)) ∧
      ∃ post, (MergeError.message (.mandatoryKey (identityKey cfg l r))).data
        = ("Mandatory identity key, " ++ identityKey cfg l r
            ++ ", not present").data ++ post) ∧
    ((∀ e ∈ r, hasIdKey (identityKey cfg l r) e = true) →
      (∀ e ∈ r, ∃ re, e = Node.mapping re ∧ ∀ kv ∈ re, ∃ s, kv.2 = Node.scalar s) →
      ∃ res, merge_with cfg (.sequence l) (.sequence r) = .ok res) := by
  have haoh : isAoH r = true := isAoH_of r hne hmaps
  refine ⟨?_, ?_, ?_, ?_⟩
  · intro kk hkk
    simp [identityKey, hkk]
  · intro hnone kv rest hfirst
    obtain ⟨k0, v0⟩ := kv
    simp [identityKey, hnone, hfirst]
  · intro hex
    have hall : ¬ r.all (hasIdKey (identityKey cfg l r)) = true := by
      rw [List.all_eq_true]
      intro hcall
      obtain ⟨e, he, hfe⟩ := hex
      rw [hcall e he] at hfe
      cases hfe
    constructor
    · simp only [merge_with, mergeValues, if_pos haoh, hpol]
      rw [if_neg hall]
    · refine ⟨", not present in the RHS record.".data.drop 13, ?_⟩
      show ("Mandatory identity key, " ++ identityKey cfg l r
          ++ ", not present in the RHS record.").data = _
      have hsplit : (", not present in the RHS record." : String)
          = ", not present" ++ " in the RHS record." := by decide
      have hdrop : (", not present in the RHS record." : String).data.drop 13
          = (" in the RHS record." : String).data := by decide
      rw [hdrop, hsplit]
      simp [String.data_append, List.append_assoc]
  · intro hall hflat
    have hall' : r.all (hasIdKey (identityKey cfg l r)) = true :=
      List.all_eq_true.mpr hall
    have hrec : ∀ e ∈ r, ∃ re, e = Node.mapping re ∧
        (lookupKey (identityKey cfg l r) re).isSome ∧
        ∀ kv ∈ re, ∃ s, kv.2 = Node.scalar s := by
      intro e he
      have hk2 := hall e he
      obtain ⟨re, he2, hf⟩ := hflat e he
      subst he2
      refine ⟨re, rfl, ?_, hf⟩
      simpa [hasIdKey] using hk2
    obtain ⟨res, hres⟩ :=
      mergeAoHDeep_flat_ok cfg (identityKey cfg l r) r l hrec
    refine ⟨.sequence res, ?_⟩
    simp only [merge_with, mergeValues, if_pos haoh, hpol]
    rw [if_pos hall', hres]

/-- C5: under the RENAME anchor policy, an RHS anchor name colliding with
an LHS anchor is renamed to a non-colliding numeric-suffix name (the
suffix incremented until free), every RHS anchor declaration and alias
reference to the old name is repointed to the new name, the LHS document
is left untouched with its references still bound to the original name,
and both anchors coexist: the original stays declared in the LHS, the new
name is declared in the renamed RHS, and the old name no longer is. -/
theorem merge_anchors_rename_spec (lhs rhs : ANode) (base : String)
    (hl : base ∈ anchorDecls lhs) (hr : base ∈ anchorDecls rhs) :
    ∃ new, new = freshAnchorName (anchorDecls lhs ++ anchorDecls rhs) base ∧
      resolveRenameConflict lhs rhs base = (lhs, renameAnchor base new rhs) ∧
      (∃ i, 1 ≤ i ∧ new = candidateName base i ∧
        ∀ m, 1 ≤ m → m < i →
          candidateName base m ∈ anchorDecls lhs ++ anchorDecls rhs) ∧
      new ∉ anchorDecls lhs ∧ new ∉ anchorDecls rhs ∧ new ≠ base ∧
      anchorDecls (renameAnchor base new rhs)
        = ((anchorDecls rhs).map fun n => if n = base then new else n) ∧
      aliasRefs (renameAnchor base new rhs)
        = ((aliasRefs rhs).map fun n => if n = base then new else n) ∧
      base ∈ anchorDecls lhs ∧
      new ∈ anchorDecls (renameAnchor base new rhs) ∧
      base ∉ anchorDecls (renameAnchor base new rhs) := by
  obtain ⟨j, hfresh, hnotin, hj1, hmin⟩ :=
    freshAnchorName_spec (anchorDecls lhs ++ anchorDecls rhs) base
  set new := freshAnchorName (anchorDecls lhs ++ anchorDecls rhs) base with hnew
  have hnl : new ∉ anchorDecls lhs := by
    rw [hfresh]
    intro hc
    exact hnotin (List.mem_append_left _ hc)
  have hnr : new ∉ anchorDecls rhs := by
    rw [hfresh]
    intro hc
    exact hnotin (List.mem_append_right _ hc)
  have hnb : new ≠ base := by
    intro hc
    exact hnl (hc ▸ hl)
  refine ⟨new, rfl, ?_, ⟨j, hj1, hfresh, hmin⟩, hnl, hnr, hnb,
    anchorDecls_rename base new rhs, aliasRefs_rename base new rhs, hl, ?_, ?_⟩
  · rw [resolveRenameConflict, if_pos ⟨hl, hr⟩]
  · rw [anchorDecls_rename]
    exact List.mem_map.mpr ⟨base, hr, by simp⟩
  · rw [anchorDecls_rename]
    intro hc
    obtain ⟨n, hn, hne⟩ := List.mem_map.mp hc
    by_cases hb : n = base
    · rw [if_pos hb] at hne
      exact hnb hne
    · rw [if_neg hb] at hne
      exact hb hne

/-- C9 counterexample: a dict (a collection) holding a NodeCoords is
returned unchanged by unwrap_node_coords, so the result still contains a
NodeCoords wrapper, contradicting the claim that every NodeCoords is
stripped at every position of any collection input. -/
theorem unwrap_dict_keeps_nodecoords :
    unwrap_node_coords
        (.dict [("k", .nodeCoords (.scalar "x") none none)])
      = .dict [("k", .nodeCoords (.scalar "x") none none)] ∧
    hasNodeCoords (unwrap_node_coords
        (.dict [("k", .nodeCoords (.scalar "x") none none)])) = true := by
  refine ⟨unwrap_dict _, ?_⟩
  rw [unwrap_dict]
  simp [hasNodeCoords]

/-- C9 (amended): unwrap_node_coords strips NodeCoords wrappers through
NodeCoords nesting and rebuilds lists from recursively stripped elements,
returns any other value (scalars and dicts included) unchanged, and on
every input whose dicts hold no NodeCoords the result contains no
NodeCoords anywhere. -/
theorem unwrap_node_coords_spec :
    (∀ (n : PyData) (p : Option PyData) (pr : Option String),
      unwrap_node_coords (.nodeCoords n p pr) = unwrap_node_coords n) ∧
    (∀ items, unwrap_node_coords (.list items)
      = .list (items.map unwrap_node_coords)) ∧
    (∀ v, unwrap_node_coords (.scalar v) = .scalar v) ∧
    (∀ es, unwrap_node_coords (.dict es) = .dict es) ∧
    ∀ d, dictsClean d = true → hasNodeCoords (unwrap_node_coords d) = false := by
  exact ⟨fun n p pr => by rw [unwrap_node_coords], unwrap_list, unwrap_scalar,
    unwrap_dict, unwrap_clean⟩

/-- C10: under the default configuration the anchor policy resolves to
STOP, and merge_with raises a MergeException whose message contains
"Aborting due to anchor conflict" exactly when the LHS and the RHS bind
the same anchor name to different values; when every shared anchor name
is bound to the identical value no conflict is raised and the run
proceeds to the tree merge over the combined registry. -/
theorem merge_with_default_anchor_conflict (cfg : MergerConfig)
    (lhsA rhsA : List (String × Node)) (lhs rhs : Node)
    (hnd : (keysOf rhsA).Nodup) :
    resolveAnchorPolicy none = AnchorConflictResolutions.stop ∧
    ((∃ n lv rv, lookupKey n lhsA = some lv ∧ lookupKey n rhsA = some rv ∧
        lv ≠ rv) ↔
      ∃ n, merge_with_stop_anchors cfg lhsA lhs rhsA rhs
        = .error (.anchorConflict n)) ∧
    (∀ n, merge_with_stop_anchors cfg lhsA lhs rhsA rhs
        = .error (.anchorConflict n) →
      ∃ lv rv, lookupKey n lhsA = some lv ∧ lookupKey n rhsA = some rv ∧
        lv ≠ rv ∧
      ∃ post, (MergeError.message (.anchorConflict n)).data
        = "Aborting due to anchor conflict".data ++ post) ∧
    ((∀ n lv rv, lookupKey n lhsA = some lv → lookupKey n rhsA = some rv →
        lv = rv) →
      merge_with_stop_anchors cfg lhsA lhs rhsA rhs
        = (merge_with cfg lhs rhs).map
            fun t => (lhsA ++ rhsA.filter fun nv => (lookupKey nv.1 lhsA).isNone, t)) := by
  have hmsg : ∀ n : String, ∃ post,
      (MergeError.message (.anchorConflict n)).data
        = "Aborting due to anchor conflict".data ++ post := by
    intro n
    refine ⟨(" with, " ++ n).data, ?_⟩
    show ("Aborting due to anchor conflict with, " ++ n).data = _
    have hsplit : ("Aborting due to anchor conflict with, " : String)
        = "Aborting due to anchor conflict" ++ " with, " := by decide
    rw [hsplit]
    simp [String.data_append, List.append_assoc]
  refine ⟨rfl, ⟨?_, ?_⟩, ?_, ?_⟩
  · intro ⟨n, lv, rv, h1, h2, h3⟩
    have hnone : ¬ firstAnchorConflict lhsA rhsA = none := by
      intro hc
      exact h3 ((firstAnchorConflict_none_iff rhsA hnd lhsA).mp hc n lv rv h1 h2)
    cases hfc : firstAnchorConflict lhsA rhsA with
    | none => exact absurd hfc hnone
    | some n' =>
        refine ⟨n', ?_⟩
        simp [merge_with_stop_anchors, combineAnchorsStop, hfc]
  · intro ⟨n, hn⟩
    simp only [merge_with_stop_anchors, combineAnchorsStop] at hn
    cases hfc : firstAnchorConflict lhsA rhsA with
    | some n' =>
        obtain ⟨lv, rv, h1, h2, h3⟩ := firstAnchorConflict_some rhsA hnd lhsA n' hfc
        exact ⟨n', lv, rv, h1, h2, h3⟩
    | none =>
        rw [hfc] at hn
        dsimp only at hn
        cases hmw : merge_with cfg lhs rhs with
        | ok t => rw [hmw] at hn; cases hn
        | error e =>
            rw [hmw] at hn
            injection hn with hn
            exact absurd (by rw [hmw, hn]) (merge_with_no_anchor cfg lhs rhs n)
  · intro n hn
    simp only [merge_with_stop_anchors, combineAnchorsStop] at hn
    cases hfc : firstAnchorConflict lhsA rhsA with
    | some n' =>
        rw [hfc] at hn
        dsimp only at hn
        injection hn with hn
        injection hn with hn
        subst hn
        obtain ⟨lv, rv, h1, h2, h3⟩ := firstAnchorConflict_some rhsA hnd lhsA n' hfc
        exact ⟨lv, rv, h1, h2, h3, hmsg n'⟩
    | none =>
        rw [hfc] at hn
        dsimp only at hn
        cases hmw : merge_with cfg lhs rhs with
        | ok t => rw [hmw] at hn; cases hn
        | error e =>
            rw [hmw] at hn
            injection hn with hn
            exact absurd (by rw [hmw, hn]) (merge_with_no_anchor cfg lhs rhs n)
  · intro hall
    have hfc : firstAnchorConflict lhsA rhsA = none :=
      (firstAnchorConflict_none_iff rhsA hnd lhsA).mpr hall
    simp only [merge_with_stop_anchors, combineAnchorsStop, hfc]
    cases hmw : merge_with cfg lhs rhs with
    | ok t => simp [Except.map, hmw]
    | error e => simp [Except.map, hmw]

/-! ## Concrete example documents, from the tests the spec quotes -/

def c1Lhs : List (String × Node) :=
  [("lhs_exclusive", .scalar "LHS exclusive"),
   ("merge_target", .scalar "LHS original value")]

def c1Rhs : List (String × Node) :=
  [("rhs_exclusive", .scalar "RHS exclusive"),
   ("merge_target", .scalar "RHS override value")]

def c1Merged : List (String × Node) :=
  [("lhs_exclusive", .scalar "LHS exclusive"),
   ("merge_target", .scalar "RHS override value"),
   ("rhs_exclusive", .scalar "RHS exclusive")]

def c2Cfg : MergerConfig := { aohPolicy := .deep }

def c2Lhs : List Node :=
  [.mapping [("identity_key", .scalar "1"), ("name", .scalar "LHS AoH One"),
    ("side", .scalar "left"), ("lhs", .scalar "true")],
   .mapping [("identity_key", .scalar "2"), ("name", .scalar "LHS AoH Two"),
    ("side", .scalar "left"), ("lhs", .scalar "true")]]

def c2Rhs : List Node :=
  [.mapping [("identity_key", .scalar "2"), ("name", .scalar "RHS AoH One"),
    ("side", .scalar "right"), ("rhs", .scalar "true")],
   .mapping [("identity_key", .scalar "3"), ("name", .scalar "RHS AoH Two"),
    ("side", .scalar "right"), ("rhs", .scalar "true")]]

def c2Merged : List Node :=
  [.mapping [("identity_key", .scalar "1"), ("name", .scalar "LHS AoH One"),
    ("side", .scalar "left"), ("lhs", .scalar "true")],
   .mapping [("identity_key", .scalar "2"), ("name", .scalar "RHS AoH One"),
    ("side", .scalar "right"), ("lhs", .scalar "true"), ("rhs", .scalar "true")],
   .mapping [("identity_key", .scalar "3"), ("name", .scalar "RHS AoH Two"),
    ("side", .scalar "right"), ("rhs", .scalar "true")]]

def c4Cfg : MergerConfig := { arrayPolicy := .unique }

def c4Lhs : List Node := [.scalar "one", .scalar "two"]

def c4Rhs : List Node := [.scalar "two", .scalar "three"]

def c5Lhs : ANode :=
  .mapping none
    [("aliases", .sequence none [.scalar (some "shared_anchor") "LHS Value"]),
     ("lhs_key", .aliasRef "shared_anchor"),
     ("merge_key", .aliasRef "shared_anchor")]

def c5Rhs : ANode :=
  .mapping none
    [("aliases", .sequence none [.scalar (some "shared_anchor") "RHS Value"]),
     ("rhs_key", .aliasRef "shared_anchor"),
     ("merge_key", .aliasRef "shared_anchor")]

def c6Cfg : MergerConfig := { aohPolicy := .deep }

def c6Lhs : List Node :=
  [.mapping [("identity_key", .scalar "1"), ("name", .scalar "LHS AoH One")],
   .mapping [("identity_key", .scalar "2"), ("name", .scalar "LHS AoH Two")]]

def c6Rhs : List Node :=
  [.mapping [("identity_key", .scalar "2"), ("name", .scalar "RHS AoH One")],
   .mapping [("name", .scalar "RHS AoH Two")]]

def c10Lhs : List (String × Node) := [("shared_anchor", .scalar "Shared Value?")]

def c10Rhs : List (String × Node) :=
  [("shared_anchor", .scalar "NOT Shared Value!")]

/-! ## Witnesses -/

/-- Witness for C1 on the documents of
`test_merge_with_defaults_simple_hash`. -/
theorem merge_with_default_deep_hash_witness :
    (keysOf c1Rhs).Nodup ∧
    merge_with defaultConfig (.mapping c1Lhs) (.mapping c1Rhs)
      = .ok (.mapping c1Merged) ∧
    ∃ m, Node.mapping c1Merged = Node.mapping m ∧
      lookupKey "merge_target" m = some (Node.scalar "RHS override value") ∧
      lookupKey "lhs_exclusive" m = some (Node.scalar "LHS exclusive") ∧
      lookupKey "rhs_exclusive" m = some (Node.scalar "RHS exclusive") := by
  refine ⟨by decide, by decide, ?_⟩
  obtain ⟨m, hm, h1, h2, h3, h4, h5, h6⟩ :=
    merge_with_default_deep_hash c1Lhs c1Rhs (.mapping c1Merged)
      (by decide) (by decide)
  refine ⟨m, hm,
    h4 "merge_target" "LHS original value" "RHS override value"
      (by decide) (by decide),
    (h1 "lhs_exclusive" (by decide)).trans (by decide),
    h2 "rhs_exclusive" (.scalar "RHS exclusive") (by decide) (by decide)⟩

/-- Witness for C2 on the documents of `test_merge_deep_aoh`. -/
theorem merge_with_deep_aoh_witness :
    c2Cfg.aohPolicy = AoHMergeOpts.deep ∧
    identityKey c2Cfg c2Lhs c2Rhs = "identity_key" ∧
    merge_with c2Cfg (.sequence c2Lhs) (.sequence c2Rhs)
      = .ok (.sequence c2Merged) := by
  have hR : ∀ e ∈ c2Rhs, ∃ re, e = Node.mapping re ∧
      (lookupKey "identity_key" re).isSome ∧
      (∀ kv ∈ re, ∃ s, kv.2 = Node.scalar s) ∧ (keysOf re).Nodup := by
    intro e he
    simp only [c2Rhs, List.mem_cons, List.not_mem_nil, or_false] at he
    rcases he with he | he <;> subst he <;>
      refine ⟨_, rfl, by decide, ?_, by decide⟩ <;>
      · intro kv hkv
        simp only [List.mem_cons, List.not_mem_nil, or_false] at hkv
        rcases hkv with h | h | h | h <;> subst h <;> exact ⟨_, rfl⟩
  refine ⟨rfl, by decide, ?_⟩
  have h := (merge_with_deep_aoh c2Cfg rfl c2Lhs c2Rhs "identity_key"
    (by decide) (by decide) (by decide) (by decide) hR (by decide)).1
  rw [h]
  decide

/-- Witness for C3 on the documents of
`test_merge_with_defaults_simple_array`. -/
theorem merge_with_default_array_concat_witness :
    merge_with defaultConfig (.sequence [.scalar "one", .scalar "two"])
        (.sequence [.scalar "two", .scalar "three"])
      = .ok (.sequence
          [.scalar "one", .scalar "two", .scalar "two", .scalar "three"]) :=
  (merge_with_default_array_concat
    [.scalar "one", .scalar "two"] [.scalar "two", .scalar "three"]).1

/-- Witness for C4 on the documents of `test_merge_unique_simple_array`. -/
theorem merge_with_unique_array_witness :
    c4Cfg.arrayPolicy = ArrayMergeOpts.unique ∧ isAoH c4Rhs = false ∧
    (∃ r', merge_with c4Cfg (.sequence c4Lhs) (.sequence c4Rhs)
        = .ok (.sequence (c4Lhs ++ r')) ∧
      r'.Sublist c4Rhs ∧ (∀ e ∈ r', e ∉ c4Lhs) ∧ r'.Nodup ∧
      ∀ e ∈ c4Rhs, e ∈ c4Lhs ∨ e ∈ r') ∧
    merge_with c4Cfg (.sequence c4Lhs) (.sequence c4Rhs)
      = .ok (.sequence [.scalar "one", .scalar "two", .scalar "three"]) :=
  ⟨rfl, by decide, merge_with_unique_array c4Cfg rfl c4Lhs c4Rhs (by decide),
   by decide⟩

/-- Witness for C5 on the documents of `test_merge_anchors_rename`. -/
theorem merge_anchors_rename_witness :
    "shared_anchor" ∈ anchorDecls c5Lhs ∧
    "shared_anchor" ∈ anchorDecls c5Rhs ∧
    ∃ new, new = freshAnchorName (anchorDecls c5Lhs ++ anchorDecls c5Rhs)
        "shared_anchor" ∧
      resolveRenameConflict c5Lhs c5Rhs "shared_anchor"
        = (c5Lhs, renameAnchor "shared_anchor" new c5Rhs) ∧
      new ∉ anchorDecls c5Lhs ∧
      aliasRefs (renameAnchor "shared_anchor" new c5Rhs)
        = ((aliasRefs c5Rhs).map fun n =>
            if n = "shared_anchor" then new else n) ∧
      new = "shared_anchor_1" := by
  have hl : "shared_anchor" ∈ anchorDecls c5Lhs := by
    simp [c5Lhs, anchorDecls_mapping, anchorDecls_sequence, anchorDecls]
  have hr : "shared_anchor" ∈ anchorDecls c5Rhs := by
    simp [c5Rhs, anchorDecls_mapping, anchorDecls_sequence, anchorDecls]
  refine ⟨hl, hr, ?_⟩
  obtain ⟨new, h0, h1, h2, h3, h4, h5, h6, h7, h8, h9, h10⟩ :=
    merge_anchors_rename_spec c5Lhs c5Rhs "shared_anchor" hl hr
  refine ⟨new, h0, h1, h3, h7, ?_⟩
  have hdl : anchorDecls c5Lhs = ["shared_anchor"] := by
    simp [c5Lhs, anchorDecls_mapping, anchorDecls_sequence, anchorDecls]
  have hdr : anchorDecls c5Rhs = ["shared_anchor"] := by
    simp [c5Rhs, anchorDecls_mapping, anchorDecls_sequence, anchorDecls]
  rw [h0, hdl, hdr]
  have hns : natSuffix 1 = "1" := by
    rw [natSuffix]
    norm_num
  simp [freshAnchorName, findFreeSuffix, candidateName, hns]

/-- Witness for C6 on the documents of `test_merge_missing_aoh_key`. -/
theorem merge_with_aoh_missing_key_witness :
    c6Cfg.aohPolicy = AoHMergeOpts.deep ∧ c6Rhs ≠ [] ∧
    (∀ e ∈ c6Rhs, isMappingNode e = true) ∧
    (∃ e ∈ c6Rhs, hasIdKey (identityKey c6Cfg c6Lhs c6Rhs) e = false) ∧
    merge_with c6Cfg (.sequence c6Lhs) (.sequence c6Rhs)
      = .error (.mandatoryKey "identity_key") := by
  have hex : ∃ e ∈ c6Rhs, hasIdKey (identityKey c6Cfg c6Lhs c6Rhs) e = false := by
    decide
  refine ⟨rfl, by decide, by decide, hex, ?_⟩
  have h := ((merge_with_aoh_missing_key c6Cfg rfl c6Lhs c6Rhs
    (by decide) (by decide)).2.2.1 hex).1
  rw [h]
  decide

/-- Witness for C7 on the documents of
`test_merge_with_defaults_hash_appends_to_array`. -/
theorem merge_with_mapping_into_sequence_witness :
    merge_with defaultConfig
        (.sequence [.scalar "is", .scalar "an", .scalar "Array"])
        (.mapping [("merge_from", .mapping [("is", .scalar "a")])])
      = .ok (.sequence [.scalar "is", .scalar "an", .scalar "Array",
          .mapping [("merge_from", .mapping [("is", .scalar "a")])]]) :=
  merge_with_mapping_into_sequence.1 defaultConfig
    [.scalar "is", .scalar "an", .scalar "Array"]
    [("merge_from", .mapping [("is", .scalar "a")])]

/-- Witness for C8 on the documents of `test_merge_scalar_to_array` and
`test_merge_scalar_to_hash_without_key`. -/
theorem merge_with_scalar_dispatch_witness :
    merge_with defaultConfig (.sequence [.scalar "one", .scalar "two"])
        (.scalar "three")
      = .ok (.sequence [.scalar "one", .scalar "two", .scalar "three"]) ∧
    merge_with defaultConfig (.mapping [("key", .scalar "value")])
        (.scalar "replacement")
      = .error (.scalarIntoHash "replacement") :=
  ⟨merge_with_scalar_dispatch.1 defaultConfig
      [.scalar "one", .scalar "two"] "three",
   (merge_with_scalar_dispatch.2 defaultConfig
      [("key", .scalar "value")] "replacement").1⟩

/-- Witness for C9: a list nesting NodeCoords wrappers, none inside a
dict, comes out fully stripped. -/
theorem unwrap_node_coords_spec_witness :
    dictsClean (.list [.nodeCoords (.nodeCoords (.scalar "x") none none)
      none none]) = true ∧
    hasNodeCoords (unwrap_node_coords
      (.list [.nodeCoords (.nodeCoords (.scalar "x") none none)
        none none])) = false := by
  have hc : dictsClean (PyData.list
      [.nodeCoords (.nodeCoords (.scalar "x") none none) none none]) = true := by
    simp [dictsClean]
  exact ⟨hc, unwrap_node_coords_spec.2.2.2.2 _ hc⟩

/-- Witness for C10 on the documents of
`test_merge_with_defaults_conflict_scalar_anchors`. -/
theorem merge_with_default_anchor_conflict_witness :
    (keysOf c10Rhs).Nodup ∧
    ∃ n, merge_with_stop_anchors defaultConfig c10Lhs (.mapping [])
        c10Rhs (.mapping [])
      = .error (.anchorConflict n) := by
  refine ⟨by decide, ?_⟩
  have h := (merge_with_default_anchor_conflict defaultConfig c10Lhs c10Rhs
    (.mapping []) (.mapping []) (by decide)).2.1
  exact h.mp ⟨"shared_anchor", .scalar "Shared Value?",
    .scalar "NOT Shared Value!", by decide, by decide, by decide⟩

end Yamlpath
